import Mathlib

set_option maxHeartbeats 1000000
set_option maxRecDepth 4000

/-!
Verification development for the `create-stb` CLI scaffolder.

Strings from the TypeScript source are modelled as `List Char`; filesystem
trees as a `FsNode` inductive; subprocess calls as an explicit trace of
`Spawn` values; fallible operations return `Except` or `Option`.
All definitions are translated from the repository source
(`src/unnamed/part_001`, the CLI with the path sanitizer), not from the
specification text; the one exception is the spec-side line-rewriting
function used in a refinement theorem, which is clearly marked.
-/

/-- Character test for the JavaScript `String.prototype.trim` whitespace
set (ASCII whitespace, NBSP, the Unicode space separators, line and
paragraph separators, narrow no-break space, medium mathematical space,
ideographic space and the BOM). -/
def isJsWs (c : Char) : Bool :=
  let n := c.toNat
  n == 9 || n == 10 || n == 11 || n == 12 || n == 13 || n == 32 ||
  n == 160 || n == 0x1680 || (0x2000 ≤ n && n ≤ 0x200A) ||
  n == 0x2028 || n == 0x2029 || n == 0x202F || n == 0x205F ||
  n == 0x3000 || n == 0xFEFF

/-- Model of JavaScript `inputPath.trim()`: drop whitespace from both ends. -/
def jsTrimL (l : List Char) : List Char :=
  ((l.dropWhile isJsWs).reverse.dropWhile isJsWs).reverse

/-- The backtick character (code point 96), named to keep it out of source text. -/
def backtickChar : Char := Char.ofNat 96

/-- The null byte. -/
def nulChar : Char := Char.ofNat 0

/-- The character class of the sanitizer's metacharacter guard, from the
regular expression in `sanitizePath` (backtick, dollar, pipe, semicolon,
ampersand, both angle brackets and the null byte). -/
def badChars : List Char := [backtickChar, '$', '|', ';', '&', '<', '>', nulChar]

/-- Membership in the sanitizer's character class, written out as the
regular expression does. -/
def isBadChar (c : Char) : Bool :=
  c = backtickChar || c = '$' || c = '|' || c = ';' || c = '&' ||
  c = '<' || c = '>' || c = nulChar

/-- Model of the regular-expression test in `sanitizePath`: does the list
contain one of the guarded metacharacters. -/
def hasBadChar (l : List Char) : Bool := l.any isBadChar

/-- Model of `trimmed.startsWith("-")`. -/
def startsWithDash : List Char → Bool
  | '-' :: _ => true
  | _ => false

/-- Split a character list on the path separator, keeping empty pieces,
as POSIX path parsing does. The result is always non-empty. -/
def splitSlash : List Char → List (List Char)
  | [] => [[]]
  | c :: t =>
    if c = '/' then [] :: splitSlash t
    else
      match splitSlash t with
      | h :: r => (c :: h) :: r
      | [] => [[c]]

/-- One step of POSIX path-segment normalization: empty segments and `.`
are dropped, `..` pops the last kept segment (excess `..` at the root is
discarded, as `path.resolve` does for absolute paths), anything else is kept. -/
def normSegsGo (acc : List (List Char)) : List (List Char) → List (List Char)
  | [] => acc
  | s :: t =>
    if s = [] ∨ s = ['.'] then normSegsGo acc t
    else if s = ['.', '.'] then normSegsGo acc.dropLast t
    else normSegsGo (acc ++ [s]) t

/-- Normalize a list of path segments (see `normSegsGo`). -/
def normSegs (l : List (List Char)) : List (List Char) := normSegsGo [] l

/-- Join path segments with the separator. -/
def joinSegs : List (List Char) → List Char
  | [] => []
  | [s] => s
  | s :: t => s ++ '/' :: joinSegs t

/-- Normalization of an absolute POSIX path: split on slashes, normalize the
segments, rejoin under a leading slash.  This is the normalization that
`path.resolve` applies to its (always absolute) result. -/
def normAbsL (l : List Char) : List Char := '/' :: joinSegs (normSegs (splitSlash l))

/-- Model of `path.isAbsolute` for POSIX: the path starts with a slash. -/
def isAbsoluteL : List Char → Bool
  | '/' :: _ => true
  | _ => false

/-- Model of `path.resolve(p)` with an explicit current working directory:
an absolute argument is normalized directly, otherwise it is resolved
against `cwd` and normalized. -/
def resolveL (cwd p : List Char) : List Char :=
  if isAbsoluteL p then normAbsL p else normAbsL (cwd ++ '/' :: p)

/-- Model of `path.normalize`, restricted to absolute inputs: the only use
site applies it to the output of `path.resolve`, which is always absolute
and carries no trailing separator, so the relative and trailing-slash cases
of `path.normalize` are unreachable here. -/
def normalizeL (p : List Char) : List Char := normAbsL p

/-- Model of `sanitizePath` from the source: reject when the trimmed input
is empty, starts with a hyphen, or contains a guarded metacharacter;
otherwise return `path.normalize(path.resolve(trimmed))`. -/
def sanitizePath (cwd input : List Char) : Except (List Char) (List Char) :=
  if (jsTrimL input).isEmpty then .error "Path must be a non-empty string".toList
  else
    let trimmed := jsTrimL input
    if startsWithDash trimmed || hasBadChar trimmed then
      .error "Invalid path: contains dangerous characters".toList
    else .ok (normalizeL (resolveL cwd trimmed))

deriving instance DecidableEq for Except

example : sanitizePath "/w".toList "foo".toList = .ok "/w/foo".toList := by decide
example : sanitizePath "/w".toList " foo ".toList = .ok "/w/foo".toList := by decide
example : sanitizePath "/w".toList "a|b".toList =
    .error "Invalid path: contains dangerous characters".toList := by decide
example : sanitizePath "/w".toList "  ".toList =
    .error "Path must be a non-empty string".toList := by decide
example : sanitizePath "/w".toList "/a/../b".toList = .ok "/b".toList := by decide
example : normalizeL (resolveL "/w".toList " foo ".toList) = "/w/ foo ".toList := by decide

/-- A guarded metacharacter is never JavaScript whitespace. -/
theorem ws_not_bad {c : Char} (h : isJsWs c = true) : isBadChar c = false := by
  cases hb : isBadChar c
  · rfl
  · exfalso
    simp only [isBadChar, Bool.or_eq_true, decide_eq_true_eq] at hb
    rcases hb with (((((((rfl | rfl) | rfl) | rfl) | rfl) | rfl) | rfl) | rfl) <;>
      exact absurd h (by decide)

/-- Whole-list version of `ws_not_bad`. -/
theorem noBad_of_allWs {l : List Char} (h : l.all isJsWs = true) :
    l.any isBadChar = false := by
  induction l with
  | nil => rfl
  | cons c t ih =>
    rw [List.all_cons, Bool.and_eq_true] at h
    rw [List.any_cons, ih h.2, ws_not_bad h.1]
    rfl

/-- The JavaScript trim decomposes its input into leading whitespace, the
trimmed core and trailing whitespace. -/
theorem jsTrimL_decomp (l : List Char) :
    ∃ a b, l = a ++ jsTrimL l ++ b ∧ a.all isJsWs = true ∧ b.all isJsWs = true := by
  refine ⟨l.takeWhile isJsWs, ((l.dropWhile isJsWs).reverse.takeWhile isJsWs).reverse,
    ?_, ?_, ?_⟩
  · conv_lhs => rw [← List.takeWhile_append_dropWhile (p := isJsWs) (l := l)]
    rw [List.append_assoc]
    congr 1
    have h := List.takeWhile_append_dropWhile (p := isJsWs)
      (l := (l.dropWhile isJsWs).reverse)
    calc l.dropWhile isJsWs
        = (l.dropWhile isJsWs).reverse.reverse := by rw [List.reverse_reverse]
      _ = ((l.dropWhile isJsWs).reverse.takeWhile isJsWs ++
            (l.dropWhile isJsWs).reverse.dropWhile isJsWs).reverse := by rw [h]
      _ = jsTrimL l ++ ((l.dropWhile isJsWs).reverse.takeWhile isJsWs).reverse := by
            rw [List.reverse_append]; rfl
  · rw [List.all_eq_true]
    intro c hc
    exact List.mem_takeWhile_imp hc
  · rw [List.all_eq_true]
    intro c hc
    rw [List.mem_reverse] at hc
    exact List.mem_takeWhile_imp hc

/-- Trimming does not change whether a guarded metacharacter is present,
because those characters are not whitespace. -/
theorem hasBadChar_jsTrimL (l : List Char) : hasBadChar (jsTrimL l) = hasBadChar l := by
  obtain ⟨a, b, hl, ha, hb⟩ := jsTrimL_decomp l
  conv_rhs => rw [hl]
  simp only [hasBadChar, List.any_append, noBad_of_allWs ha, noBad_of_allWs hb,
    Bool.false_or, Bool.or_false]

/-- Both branches of `resolveL` return a slash-headed list. -/
theorem isAbsoluteL_resolveL (cwd p : List Char) : isAbsoluteL (resolveL cwd p) = true := by
  unfold resolveL
  split <;> rfl

/-- C1 (amended): `sanitizePath` fails exactly when the trimmed input is
empty, begins with a hyphen, or contains one of the guarded metacharacters
(equivalently, when the untrimmed input does, since those characters are
never whitespace); for every other string it returns the absolute,
normalized path obtained by resolving the trimmed input against the
current working directory. -/
theorem sanitizePath_spec (cwd input : List Char) :
    ((∃ e, sanitizePath cwd input = .error e) ↔
      (jsTrimL input = [] ∨ startsWithDash (jsTrimL input) = true ∨
        hasBadChar input = true))
    ∧ (∀ r, sanitizePath cwd input = .ok r →
        r = normalizeL (resolveL cwd (jsTrimL input)) ∧ isAbsoluteL r = true) := by
  constructor
  · rw [← hasBadChar_jsTrimL input]
    unfold sanitizePath
    by_cases h1 : (jsTrimL input).isEmpty
    · simp only [h1, if_true]
      constructor
      · intro _
        left
        exact List.isEmpty_iff.mp h1
      · intro _
        exact ⟨_, rfl⟩
    · simp only [h1, if_false]
      by_cases h2 : startsWithDash (jsTrimL input) || hasBadChar (jsTrimL input)
      · simp only [h2, if_true]
        constructor
        · intro _
          rw [Bool.or_eq_true] at h2
          right
          exact h2
        · intro _
          exact ⟨_, rfl⟩
      · simp only [h2, if_false]
        constructor
        · rintro ⟨e, he⟩
          cases he
        · rintro (hne | hrest)
          · exact absurd (List.isEmpty_iff.mpr hne) h1
          · rw [← Bool.or_eq_true] at hrest
            exact absurd hrest h2
  · intro r hr
    unfold sanitizePath at hr
    by_cases h1 : (jsTrimL input).isEmpty
    · simp only [h1, if_true] at hr
      cases hr
    · simp only [h1, if_false] at hr
      by_cases h2 : startsWithDash (jsTrimL input) || hasBadChar (jsTrimL input)
      · simp only [h2, if_true] at hr
        cases hr
      · simp only [h2, if_false] at hr
        cases hr
        refine ⟨rfl, ?_⟩
        rw [normalizeL, normAbsL]
        rfl

/-- Witness for `sanitizePath_spec` at a concrete input. -/
theorem sanitizePath_spec_witness :
    "/w/x".toList = normalizeL (resolveL "/w".toList (jsTrimL " x ".toList)) ∧
      isAbsoluteL "/w/x".toList = true :=
  (sanitizePath_spec "/w".toList " x ".toList).2 "/w/x".toList (by decide)

/-- C1 counterexample: for the input consisting of `foo` surrounded by
spaces, the sanitizer succeeds but returns the resolution of the trimmed
input, which differs from the normalized resolution of the input itself
that the claim specifies (the latter keeps the surrounding spaces as part
of the final path segment). -/
theorem sanitizePath_claim_cex :
    sanitizePath "/w".toList " foo ".toList = .ok "/w/foo".toList ∧
      normalizeL (resolveL "/w".toList " foo ".toList) = "/w/ foo ".toList ∧
      "/w/foo".toList ≠ "/w/ foo ".toList :=
  ⟨by decide, by decide, by decide⟩

/-- Model of JavaScript `s.replace(pat, repl)` for a plain string pattern
and a replacement containing no dollar patterns: replace the first
occurrence of `pat` only.  Used for `process.version.replace("v", "")`. -/
def replaceFirstL (pat repl : List Char) : List Char → List Char
  | [] => if pat.isPrefixOf [] then repl else []
  | c :: t =>
    if pat.isPrefixOf (c :: t) then repl ++ (c :: t).drop pat.length
    else c :: replaceFirstL pat repl t

/-- Model of JavaScript `s.split(sep)` for a one-character string
separator: split on every occurrence, keeping empty pieces.  The result
is always non-empty. -/
def splitOnCharL (sep : Char) : List Char → List (List Char)
  | [] => [[]]
  | c :: t =>
    if c = sep then [] :: splitOnCharL sep t
    else
      match splitOnCharL sep t with
      | h :: r => (c :: h) :: r
      | [] => [[c]]

/-- Decimal value of a digit string (the value JavaScript `Number` gives an
all-digit string; the empty string also agrees, since `Number("")` is 0). -/
def natOfDigits (l : List Char) : Nat := l.foldl (fun a c => 10 * a + (c.toNat - 48)) 0

/-- Model of the comparison `Number(major) < minMajor` from
`checkNodeVersion`: on an all-digit (possibly empty) string this compares
the decimal value; any other string gives `NaN`, and a `NaN` comparison is
false. -/
def jsNumberLtNat (s : List Char) (m : Nat) : Bool :=
  if s.all Char.isDigit then decide (natOfDigits s < m) else false

/-- Model of `checkNodeVersion` from the source: strip the first `v`,
split on dots, take the first component, and fail when its numeric value
is below the required minimum. -/
def checkNodeVersion (version : List Char) (minMajor : Nat) : Except (List Char) Unit :=
  let stripped := replaceFirstL ['v'] [] version
  let major := (splitOnCharL '.' stripped).headD []
  if jsNumberLtNat major minMajor then
    .error ("Node.js v".toList ++ (Nat.repr minMajor).toList ++ "+ required".toList)
  else .ok ()

/-- Substring test: does `pat` occur contiguously inside the list. -/
def containsSeq (pat : List Char) : List Char → Bool
  | [] => pat.isEmpty
  | c :: t => pat.isPrefixOf (c :: t) || containsSeq pat t

example : checkNodeVersion "v19.2.0".toList 20 =
    .error "Node.js v20+ required".toList := by decide
example : checkNodeVersion "v20.11.1".toList 20 = .ok () := by decide
example : containsSeq "required".toList "Node.js v20+ required".toList = true := by decide

/-- A substring of the right part is a substring of an append. -/
theorem containsSeq_append_right (pat x y : List Char) (h : containsSeq pat y = true) :
    containsSeq pat (x ++ y) = true := by
  induction x with
  | nil => exact h
  | cons c t ih =>
    rw [List.cons_append, containsSeq, ih, Bool.or_true]

/-- Splitting never yields an empty list of pieces. -/
theorem splitOnCharL_ne_nil (sep : Char) (l : List Char) : splitOnCharL sep l ≠ [] := by
  cases l with
  | nil => simp [splitOnCharL]
  | cons c t =>
    rw [splitOnCharL]
    split
    · simp
    · split <;> simp

/-- The first piece of a split at the first separator occurrence is the
part before it, provided that part is separator-free. -/
theorem splitOnCharL_append_head (sep : Char) (a b : List Char) (h : sep ∉ a) :
    (splitOnCharL sep (a ++ sep :: b)).headD [] = a := by
  induction a with
  | nil =>
    simp [splitOnCharL]
  | cons c t ih =>
    have hcs : ¬ c = sep := fun hc => h (hc ▸ List.mem_cons_self c t)
    have ht : sep ∉ t := fun hm => h (List.mem_cons_of_mem c hm)
    rw [List.cons_append, splitOnCharL, if_neg hcs]
    rcases he : splitOnCharL sep (t ++ sep :: b) with _ | ⟨hd, r⟩
    · exact absurd he (splitOnCharL_ne_nil sep _)
    · have := ih ht
      rw [he] at this
      simp only [List.headD_cons] at this
      simp [this]

/-- Stripping the leading marker character. -/
theorem replaceFirstL_head (c : Char) (t : List Char) :
    replaceFirstL [c] [] (c :: t) = t := by
  rw [replaceFirstL, if_pos]
  · rfl
  · simp [List.isPrefixOf]

/-- C8: `checkNodeVersion` on a host version string `v<digits>.<rest>`
fails exactly when the detected major version is numerically lower than
`minMajor`, with an error message containing `required`; it succeeds when
the major version is `minMajor` or above. -/
theorem checkNodeVersion_spec (ds rest : List Char) (minMajor : Nat)
    (hdig : ds.all Char.isDigit = true) :
    (natOfDigits ds < minMajor →
      ∃ msg, checkNodeVersion ('v' :: ds ++ '.' :: rest) minMajor = .error msg ∧
        containsSeq "required".toList msg = true)
    ∧ (minMajor ≤ natOfDigits ds →
      checkNodeVersion ('v' :: ds ++ '.' :: rest) minMajor = .ok ()) := by
  have hdot : '.' ∉ ds := by
    intro hm
    rw [List.all_eq_true] at hdig
    exact absurd (hdig '.' hm) (by decide)
  have hmajor : ((splitOnCharL '.' (replaceFirstL ['v'] [] ('v' :: ds ++ '.' :: rest))).headD []) = ds := by
    rw [List.cons_append, replaceFirstL_head, splitOnCharL_append_head '.' ds rest hdot]
  constructor
  · intro hlt
    refine ⟨"Node.js v".toList ++ (Nat.repr minMajor).toList ++ "+ required".toList, ?_, ?_⟩
    · rw [checkNodeVersion]
      rw [hmajor]
      rw [jsNumberLtNat, if_pos hdig, if_pos (decide_eq_true hlt)]
    · have : ("Node.js v".toList ++ (Nat.repr minMajor).toList ++ "+ required".toList) =
          ("Node.js v".toList ++ (Nat.repr minMajor).toList) ++ "+ required".toList := by
        rw [List.append_assoc]
      rw [this]
      exact containsSeq_append_right _ _ _ (by decide)
  · intro hge
    rw [checkNodeVersion]
    rw [hmajor]
    rw [jsNumberLtNat, if_pos hdig, if_neg]
    simp only [decide_eq_true_eq]
    omega

/-- Witness for `checkNodeVersion_spec` at the concrete version `v19.2.0`
against minimum 20, and `v20.11.1` against minimum 20. -/
theorem checkNodeVersion_spec_witness :
    (∃ msg, checkNodeVersion ('v' :: "19".toList ++ '.' :: "2.0".toList) 20 = .error msg ∧
      containsSeq "required".toList msg = true)
    ∧ checkNodeVersion ('v' :: "20".toList ++ '.' :: "11.1".toList) 20 = .ok () :=
  ⟨(checkNodeVersion_spec "19".toList "2.0".toList 20 (by decide)).1 (by decide),
   (checkNodeVersion_spec "20".toList "11.1".toList 20 (by decide)).2 (by decide)⟩

/-- Outcome of each statement of `main`'s `try` block, in source order,
plus the outcome of the `cleanupTemp(tempDir)` call in the `catch` block.
Each step is abstracted to whether it throws (`.error` with its message)
or completes. -/
structure MainSteps where
  nodeCheck : Except (List Char) Unit
  gitCheck : Except (List Char) Unit
  mkdirStep : Except (List Char) Unit
  cloneStep : Except (List Char) Unit
  copyStep : Except (List Char) Unit
  cleanupStep : Except (List Char) Unit
  pkgStep : Except (List Char) Unit
  ymlStep : Except (List Char) Unit
  installStep : Except (List Char) Unit
  catchCleanup : Except (List Char) Unit

/-- The `try` block of `main`: the pipeline steps run in order and the
first throw aborts the rest. -/
def mainTryBody (s : MainSteps) : Except (List Char) Unit := do
  s.nodeCheck
  s.gitCheck
  s.mkdirStep
  s.cloneStep
  s.copyStep
  s.cleanupStep
  s.pkgStep
  s.ymlStep
  s.installStep

/-- Model of `main`'s try/catch from the source: on a throw from the body,
the catch block runs `cleanupTemp(tempDir)` and then re-throws the caught
error.  Under exception semantics, a throw from that cleanup call itself
propagates out of the catch block in place of the caught error, since the
source wraps the cleanup call in no inner try/catch.  The boolean records
whether the catch-path cleanup call was reached. -/
def mainModel (s : MainSteps) : Except (List Char) Unit × Bool :=
  match mainTryBody s with
  | .ok _ => (.ok (), false)
  | .error e =>
    match s.catchCleanup with
    | .ok _ => (.error e, true)
    | .error e2 => (.error e2, true)

/-- C2 (amended): whenever a pipeline step throws, `main` attempts the
temporary-workspace cleanup and re-raises the original error provided the
cleanup attempt itself completes; if the cleanup attempt throws, the
cleanup error propagates in place of the original one (the source has no
discard-errors wrapper around the catch-path cleanup call). -/
theorem mainModel_catch_spec (s : MainSteps) (e : List Char)
    (hfail : mainTryBody s = .error e) :
    (mainModel s).2 = true
    ∧ (s.catchCleanup = .ok () → (mainModel s).1 = .error e)
    ∧ (∀ e2, s.catchCleanup = .error e2 → (mainModel s).1 = .error e2) := by
  unfold mainModel
  rw [hfail]
  cases hc : s.catchCleanup with
  | ok u =>
    cases u
    refine ⟨rfl, fun _ => rfl, fun e2 h2 => ?_⟩
    cases h2
  | error e2 =>
    refine ⟨rfl, fun h2 => ?_, fun e3 h3 => ?_⟩
    · cases h2
    · cases h3
      rfl

/-- Concrete step assignment where the clone step throws `boom` and the
catch-path cleanup itself throws `rm failed`. -/
def cexSteps : MainSteps :=
  ⟨.ok (), .ok (), .ok (), .error "boom".toList, .ok (), .ok (), .ok (), .ok (),
   .ok (), .error "rm failed".toList⟩

/-- C2 counterexample: with the clone step throwing `boom` and the cleanup
attempt in the catch block throwing `rm failed`, `main` propagates
`rm failed` rather than re-raising the original `boom` error, so the
cleanup failure is not swallowed and does mask the original error. -/
theorem mainModel_claim_cex :
    mainTryBody cexSteps = .error "boom".toList
    ∧ (mainModel cexSteps).1 = .error "rm failed".toList
    ∧ "rm failed".toList ≠ "boom".toList :=
  ⟨by decide, by decide, by decide⟩

/-- Witness for `mainModel_catch_spec`: with the clone step throwing and a
completing cleanup attempt, the original error is re-raised. -/
theorem mainModel_catch_spec_witness :
    (mainModel ⟨.ok (), .ok (), .ok (), .error "boom".toList, .ok (), .ok (), .ok (),
      .ok (), .ok (), .ok ()⟩).2 = true
    ∧ (mainModel ⟨.ok (), .ok (), .ok (), .error "boom".toList, .ok (), .ok (), .ok (),
      .ok (), .ok (), .ok ()⟩).1 = .error "boom".toList := by
  have h := mainModel_catch_spec ⟨.ok (), .ok (), .ok (), .error "boom".toList, .ok (),
    .ok (), .ok (), .ok (), .ok (), .ok ()⟩ "boom".toList (by decide)
  exact ⟨h.1, h.2.1 rfl⟩

/-- JSON values as produced by `JSON.parse`, at the structural level used
by `updatePackageJson` (the function only assigns two object properties
and re-serializes). -/
inductive Jv where
  | str (s : String)
  | num (n : Int)
  | boolean (b : Bool)
  | null
  | arr (xs : List Jv)
  | obj (fields : List (String × Jv))

/-- Association-list lookup by key, first match (parsed JSON objects have
unique keys, `JSON.parse` keeping the last duplicate). -/
def getField : List (String × Jv) → String → Option Jv
  | [], _ => none
  | (k, v) :: t, s => if k = s then some v else getField t s

/-- Model of a JavaScript property assignment `o[k] = v` on a parsed JSON
object: an existing key keeps its position and gets the new value; a fresh
key is appended at the end, which is where `JSON.stringify` serializes it. -/
def setField (o : List (String × Jv)) (k : String) (v : Jv) : List (String × Jv) :=
  if o.any (fun p => p.1 = k) then
    o.map (fun p => if p.1 = k then (k, v) else p)
  else o ++ [(k, v)]

/-- Model of `updatePackageJson` from the source.  The file is abstracted
to its parse outcome: `none` means `package.json` is absent (the function
returns without writing), `some (.error e)` means `JSON.parse` throws
(the error propagates), `some (.ok pkg)` is the parsed object.  On success
the result records the object that `JSON.stringify(pkg, null, 2)` writes
back together with the indentation width 2 it is serialized with. -/
def updatePackageJson (file : Option (Except String (List (String × Jv))))
    (projectName : String) : Except String (Option (List (String × Jv) × Nat)) :=
  match file with
  | none => .ok none
  | some (.error e) => .error e
  | some (.ok pkg) =>
    .ok (some (setField (setField pkg "name" (.str projectName))
      "description" (.str (projectName ++ " app description")), 2))

/-- Updating the value at key `k` through the assignment map makes `k`
yield the new value, provided `k` occurs. -/
theorem getField_map_same (k : String) (v : Jv) :
    ∀ o : List (String × Jv), (o.any (fun p => p.1 = k)) = true →
      getField (o.map (fun p => if p.1 = k then (k, v) else p)) k = some v := by
  intro o
  induction o with
  | nil => intro h; simp at h
  | cons p t ih =>
    intro h
    rw [List.map_cons]
    by_cases hp : p.1 = k
    · rw [if_pos hp, getField, if_pos rfl]
    · rw [if_neg hp, getField, if_neg hp]
      rw [List.any_cons, Bool.or_eq_true, decide_eq_true_eq] at h
      exact ih (h.resolve_left hp)

/-- The assignment map leaves lookups at other keys unchanged. -/
theorem getField_map_other (k k' : String) (v : Jv) (hne : k' ≠ k) :
    ∀ o : List (String × Jv),
      getField (o.map (fun p => if p.1 = k then (k, v) else p)) k' = getField o k' := by
  intro o
  induction o with
  | nil => rfl
  | cons p t ih =>
    rw [List.map_cons]
    by_cases hp : p.1 = k
    · rw [if_pos hp, getField, getField]
      rw [if_neg (fun h => hne h.symm), if_neg (fun h => hne (hp.symm.trans h).symm)]
      exact ih
    · rw [if_neg hp, getField, getField]
      by_cases hpk : p.1 = k'
      · rw [if_pos hpk, if_pos hpk]
      · rw [if_neg hpk, if_neg hpk]
        exact ih

/-- Appending a fresh binding makes its key yield the new value, provided
the key did not occur before. -/
theorem getField_append_same (k : String) (v : Jv) :
    ∀ o : List (String × Jv), (o.any (fun p => p.1 = k)) = false →
      getField (o ++ [(k, v)]) k = some v := by
  intro o
  induction o with
  | nil => intro _; rw [List.nil_append, getField, if_pos rfl]
  | cons p t ih =>
    intro h
    rw [List.any_cons, Bool.or_eq_false_iff] at h
    rw [List.cons_append, getField]
    have hp : ¬ p.1 = k := by
      intro hp
      rw [hp] at h
      simp at h
    rw [if_neg hp]
    exact ih h.2

/-- Appending a binding for `k` leaves lookups at other keys unchanged. -/
theorem getField_append_other (k k' : String) (v : Jv) (hne : k' ≠ k) :
    ∀ o : List (String × Jv),
      getField (o ++ [(k, v)]) k' = getField o k' := by
  intro o
  induction o with
  | nil =>
    rw [List.nil_append]
    show (if k = k' then some v else getField [] k') = getField [] k'
    rw [if_neg (fun h => hne h.symm)]
  | cons p t ih =>
    rw [List.cons_append, getField, getField]
    by_cases hpk : p.1 = k'
    · rw [if_pos hpk, if_pos hpk]
    · rw [if_neg hpk, if_neg hpk]
      exact ih

/-- Setting a key makes it present with the new value. -/
theorem getField_setField_same (o : List (String × Jv)) (k : String) (v : Jv) :
    getField (setField o k v) k = some v := by
  unfold setField
  split
  · exact getField_map_same k v o (by assumption)
  · rename_i h
    rw [Bool.not_eq_true] at h
    exact getField_append_same k v o h

/-- Setting one key leaves every other key's value unchanged. -/
theorem getField_setField_other (o : List (String × Jv)) (k k' : String) (v : Jv)
    (hne : k' ≠ k) :
    getField (setField o k v) k' = getField o k' := by
  unfold setField
  split
  · exact getField_map_other k k' v hne o
  · exact getField_append_other k k' v hne o

/-- C4: `updatePackageJson` is a no-op (no write) when the descriptor file
is absent; on malformed content it propagates the parse error; otherwise
it writes back the parsed object with `name` set to the project name and
`description` set to `<projectName> app description`, serialized with
two-space indentation. -/
theorem updatePackageJson_spec (file : Option (Except String (List (String × Jv))))
    (projectName : String) :
    (file = none → updatePackageJson file projectName = .ok none)
    ∧ (∀ e, file = some (.error e) → updatePackageJson file projectName = .error e)
    ∧ (∀ pkg, file = some (.ok pkg) →
        ∃ doc, updatePackageJson file projectName = .ok (some (doc, 2))
          ∧ getField doc "name" = some (.str projectName)
          ∧ getField doc "description" = some (.str (projectName ++ " app description"))) := by
  refine ⟨?_, ?_, ?_⟩
  · intro h
    rw [h]
    rfl
  · intro e h
    rw [h]
    rfl
  · intro pkg h
    rw [h]
    refine ⟨_, rfl, ?_, ?_⟩
    · rw [getField_setField_other _ _ _ _ (by decide)]
      exact getField_setField_same pkg "name" _
    · exact getField_setField_same _ "description" _

/-- Witness for `updatePackageJson_spec` on a concrete descriptor. -/
theorem updatePackageJson_spec_witness :
    ∃ doc, updatePackageJson (some (.ok [("name", Jv.str "old"), ("description", Jv.str "desc")]))
        "new-name" = .ok (some (doc, 2))
      ∧ getField doc "name" = some (.str "new-name")
      ∧ getField doc "description" = some (.str ("new-name" ++ " app description")) :=
  (updatePackageJson_spec (some (.ok [("name", Jv.str "old"), ("description", Jv.str "desc")]))
    "new-name").2.2 _ rfl

/-- C10: on a well-formed descriptor, `updatePackageJson` preserves the
value of every field other than `name` and `description`. -/
theorem updatePackageJson_frame (pkg : List (String × Jv)) (projectName : String)
    (k : String) (h1 : k ≠ "name") (h2 : k ≠ "description")
    (doc : List (String × Jv)) (ind : Nat)
    (hres : updatePackageJson (some (.ok pkg)) projectName = .ok (some (doc, ind))) :
    getField doc k = getField pkg k := by
  unfold updatePackageJson at hres
  cases hres
  rw [getField_setField_other _ _ _ _ h2, getField_setField_other _ _ _ _ h1]

/-- Witness for `updatePackageJson_frame`: the `version` field of a
concrete descriptor is untouched. -/
theorem updatePackageJson_frame_witness :
    getField (setField (setField [("name", Jv.str "old"), ("version", Jv.str "1.0.0")]
        "name" (Jv.str "n")) "description" (Jv.str ("n" ++ " app description"))) "version" =
      getField [("name", Jv.str "old"), ("version", Jv.str "1.0.0")] "version" :=
  updatePackageJson_frame [("name", Jv.str "old"), ("version", Jv.str "1.0.0")] "n" "version"
    (by decide) (by decide) _ 2 rfl

/-- The apostrophe character (code point 39), named to keep it out of
source text. -/
def squoteChar : Char := Char.ofNat 39

/-- Line-terminator characters for JavaScript regular expressions in
multiline mode: `^` matches after any of these, `$` before any of these,
and `.` matches none of them. -/
def isLineTerm (c : Char) : Bool :=
  c = '\n' || c = '\r' || c = Char.ofNat 0x2028 || c = Char.ofNat 0x2029

/-- The pattern characters of the literal part of `/^service:.*$/`. -/
def servicePat : List Char := "service:".toList

/-- Scanner for the first match of `/^service:.*$/m`: walk the content
keeping the reversed prefix already passed and whether the current
position is a line start; at a line start where the literal `service:`
matches, return the passed prefix and the remainder starting at the match. -/
def findServiceGo : List Char → Bool → List Char → Option (List Char × List Char)
  | before, atStart, cs =>
    if atStart && List.isPrefixOf servicePat cs then some (before.reverse, cs)
    else
      match cs with
      | [] => none
      | c :: t => findServiceGo (c :: before) (isLineTerm c) t

/-- First-match search for `/^service:.*$/m` over the whole content. -/
def findService (content : List Char) : Option (List Char × List Char) :=
  findServiceGo [] true content

/-- JavaScript replacement-string expansion for a pattern with no capture
groups: `$$` inserts a dollar, `$&` the matched substring, a dollar
followed by a backtick the part before the match, `$` followed by an
apostrophe the part after the match; any other dollar sequence is left
as written. -/
def expandRepl (before matched after : List Char) : List Char → List Char
  | [] => []
  | c :: t =>
    if c = '$' then
      match t with
      | [] => ['$']
      | c2 :: t2 =>
        if c2 = '$' then '$' :: expandRepl before matched after t2
        else if c2 = '&' then matched ++ expandRepl before matched after t2
        else if c2 = backtickChar then before ++ expandRepl before matched after t2
        else if c2 = squoteChar then after ++ expandRepl before matched after t2
        else '$' :: c2 :: expandRepl before matched after t2
    else c :: expandRepl before matched after t

/-- Model of `content.replace(/^service:.*$/m, repl)`: if the regular
expression matches, the matched line (its maximal terminator-free run) is
replaced by the expanded replacement string; otherwise the content is
returned unchanged. -/
def replaceServiceRegex (repl content : List Char) : List Char :=
  match findService content with
  | none => content
  | some (before, fromMatch) =>
    let matched := fromMatch.takeWhile (fun c => !(isLineTerm c))
    let after := fromMatch.dropWhile (fun c => !(isLineTerm c))
    before ++ expandRepl before matched after repl ++ after

/-- Model of `updateServerlessYml` from the source: an absent file is left
absent (no write); otherwise the content is rewritten through the
single-shot regex replacement with the template `service: <projectName>`. -/
def updateServerlessYml (file : Option (List Char)) (projectName : List Char) :
    Option (List Char) :=
  match file with
  | none => none
  | some content => some (replaceServiceRegex ("service: ".toList ++ projectName) content)

/-- Join lines with newline separators (inverse of splitting on `\n`). -/
def joinNl : List (List Char) → List Char
  | [] => []
  | [l] => l
  | l :: rest => l ++ '\n' :: joinNl rest

/-- Every line followed by a newline (the shape of the scanned-past prefix
when a later line matches). -/
def linesPre : List (List Char) → List Char
  | [] => []
  | l :: rest => l ++ '\n' :: linesPre rest

/-- Modelled from the spec: the claim's description of the rewrite — the
first line carrying the `service:` prefix is replaced by the line
`service: <projectName>` and every other line is left byte-identical. -/
def replaceFirstServiceLine (name : List Char) : List (List Char) → List (List Char)
  | [] => []
  | l :: rest =>
    if List.isPrefixOf servicePat l then ("service: ".toList ++ name) :: rest
    else l :: replaceFirstServiceLine name rest

example : updateServerlessYml (some "service: starter\nprovider:\n  name: aws\n".toList)
    "my-service".toList =
    some "service: my-service\nprovider:\n  name: aws\n".toList := by decide
example : updateServerlessYml none "x".toList = none := by decide
example : updateServerlessYml (some "service: old\nx".toList) "$&".toList =
    some "service: service: old\nx".toList := by decide

/-- A dollar-free replacement string expands to itself. -/
theorem expandRepl_no_dollar (b m a : List Char) :
    ∀ t : List Char, '$' ∉ t → expandRepl b m a t = t := by
  intro t
  induction t with
  | nil => intro _; rfl
  | cons c t ih =>
    intro h
    have hc : ¬ c = '$' := fun hc => h (hc ▸ List.mem_cons_self c t)
    have hstep : expandRepl b m a (c :: t) = c :: expandRepl b m a t := by
      conv_lhs => rw [expandRepl.eq_def]
      exact if_neg hc
    rw [hstep, ih (fun hm => h (List.mem_cons_of_mem c hm))]

/-- Matching the literal pattern against a line followed by a separator
the pattern does not contain is the same as matching against the line. -/
theorem isPrefixOf_append_sep (pat : List Char) (sep : Char) (hsep : sep ∉ pat) :
    ∀ l y : List Char, List.isPrefixOf pat (l ++ sep :: y) = List.isPrefixOf pat l := by
  induction pat with
  | nil => intro l y; rw [List.isPrefixOf_nil_left, List.isPrefixOf_nil_left]
  | cons p pt ih =>
    intro l y
    cases l with
    | nil =>
      rw [List.nil_append, List.isPrefixOf_cons_nil, List.isPrefixOf_cons₂]
      have hps : (p == sep) = false := by
        rw [beq_eq_false_iff_ne]
        exact fun h => hsep (h ▸ List.mem_cons_self p pt)
      rw [hps, Bool.false_and]
    | cons a lt =>
      rw [List.cons_append, List.isPrefixOf_cons₂, List.isPrefixOf_cons₂,
        ih (fun h => hsep (List.mem_cons_of_mem p h)) lt y]

/-- The scanner's behaviour while inside a line, off the line start: it
runs to the next newline and continues from the following line start. -/
theorem findServiceGo_false_line (y : List Char) :
    ∀ (l before : List Char), (∀ c ∈ l, isLineTerm c = false) →
      findServiceGo before false (l ++ '\n' :: y) =
        findServiceGo ('\n' :: (l.reverse ++ before)) true y := by
  intro l
  induction l with
  | nil =>
    intro before _
    rw [List.nil_append, findServiceGo]
    simp only [Bool.false_and, if_false]
    rfl
  | cons c lt ih =>
    intro before hterm
    rw [List.cons_append, findServiceGo]
    simp only [Bool.false_and, if_false]
    have hc : isLineTerm c = false := hterm c (List.mem_cons_self c lt)
    rw [hc]
    rw [ih (c :: before) (fun x hx => hterm x (List.mem_cons_of_mem c hx))]
    rw [List.reverse_cons, List.append_assoc]
    rfl

/-- The scanner's behaviour on a whole non-matching line: it consumes the
line and its newline and continues at the next line start. -/
theorem findServiceGo_line (l y before : List Char)
    (hterm : ∀ c ∈ l, isLineTerm c = false)
    (hnp : List.isPrefixOf servicePat l = false) :
    findServiceGo before true (l ++ '\n' :: y) =
      findServiceGo ('\n' :: (l.reverse ++ before)) true y := by
  have hnp2 : List.isPrefixOf servicePat (l ++ '\n' :: y) = false := by
    rw [isPrefixOf_append_sep servicePat '\n' (by decide) l y, hnp]
  cases l with
  | nil =>
    rw [List.nil_append]
    rw [List.nil_append] at hnp2
    rw [findServiceGo, hnp2]
    simp only [Bool.and_false, if_false]
    rfl
  | cons c lt =>
    rw [List.cons_append, findServiceGo]
    rw [List.cons_append] at hnp2
    rw [hnp2]
    simp only [Bool.and_false, if_false]
    have hc : isLineTerm c = false := hterm c (List.mem_cons_self c lt)
    rw [hc]
    rw [findServiceGo_false_line y lt (c :: before)
      (fun x hx => hterm x (List.mem_cons_of_mem c hx))]
    rw [List.reverse_cons, List.append_assoc]
    rfl

/-- The scanner finds nothing in a final line without the pattern. -/
theorem findServiceGo_last_false (l : List Char) (hterm : ∀ c ∈ l, isLineTerm c = false) :
    ∀ before, findServiceGo before false l = none := by
  induction l with
  | nil =>
    intro before
    rw [findServiceGo]
    simp
  | cons c lt ih =>
    intro before
    rw [findServiceGo]
    simp only [Bool.false_and, if_false]
    rw [hterm c (List.mem_cons_self c lt)]
    exact ih (fun x hx => hterm x (List.mem_cons_of_mem c hx)) (c :: before)

/-- The scanner finds nothing in a final non-matching line starting at a
line start. -/
theorem findServiceGo_last (l before : List Char)
    (hterm : ∀ c ∈ l, isLineTerm c = false)
    (hnp : List.isPrefixOf servicePat l = false) :
    findServiceGo before true l = none := by
  cases l with
  | nil =>
    rw [findServiceGo, hnp]
    simp
  | cons c lt =>
    rw [findServiceGo, hnp]
    simp only [Bool.and_false, if_false]
    rw [hterm c (List.mem_cons_self c lt)]
    exact findServiceGo_last_false lt (fun x hx => hterm x (List.mem_cons_of_mem c hx)) _

/-- A `joinNl` over a non-empty tail unfolds to the head line, a newline,
and the rest. -/
theorem joinNl_cons (p : List Char) (X : List (List Char)) (h : X ≠ []) :
    joinNl (p :: X) = p ++ '\n' :: joinNl X := by
  cases X with
  | nil => exact absurd rfl h
  | cons a b => rfl

/-- The scanner matches immediately at a line start carrying the pattern. -/
theorem findServiceGo_match (before cs : List Char)
    (hp : List.isPrefixOf servicePat cs = true) :
    findServiceGo before true cs = some (before.reverse, cs) := by
  cases cs with
  | nil => exact absurd hp (by simp [servicePat])
  | cons c t =>
    rw [findServiceGo, hp]
    simp

/-- Scanner characterization, match case: with every earlier line free of
the pattern, the scanner returns the passed-over prefix and the remainder
starting at the first matching line. -/
theorem findService_lines_match (pre : List (List Char)) (l : List Char)
    (post : List (List Char)) :
    ∀ before : List Char,
      (∀ p ∈ pre, ∀ c ∈ p, isLineTerm c = false) →
      (∀ p ∈ pre, List.isPrefixOf servicePat p = false) →
      List.isPrefixOf servicePat l = true →
      findServiceGo before true (joinNl (pre ++ l :: post)) =
        some (before.reverse ++ linesPre pre, joinNl (l :: post)) := by
  induction pre with
  | nil =>
    intro before _ _ hl
    rw [List.nil_append, linesPre, List.append_nil]
    cases post with
    | nil =>
      exact findServiceGo_match before (joinNl [l]) hl
    | cons q post' =>
      refine findServiceGo_match before _ ?_
      rw [joinNl_cons l (q :: post') (by simp)]
      rw [isPrefixOf_append_sep servicePat '\n' (by decide) l (joinNl (q :: post'))]
      exact hl
  | cons p pre' ih =>
    intro before htermAll hnpAll hl
    rw [List.cons_append, joinNl_cons p (pre' ++ l :: post) (by simp)]
    rw [findServiceGo_line p (joinNl (pre' ++ l :: post)) before
      (htermAll p (List.mem_cons_self p pre'))
      (hnpAll p (List.mem_cons_self p pre'))]
    rw [ih ('\n' :: (p.reverse ++ before))
      (fun x hx => htermAll x (List.mem_cons_of_mem p hx))
      (fun x hx => hnpAll x (List.mem_cons_of_mem p hx)) hl]
    rw [List.reverse_cons, List.reverse_append, List.reverse_reverse]
    rw [linesPre]
    simp [List.append_assoc]

/-- Scanner characterization, no-match case. -/
theorem findService_lines_none (ls : List (List Char)) :
    ∀ before : List Char,
      (∀ p ∈ ls, ∀ c ∈ p, isLineTerm c = false) →
      (∀ p ∈ ls, List.isPrefixOf servicePat p = false) →
      findServiceGo before true (joinNl ls) = none := by
  induction ls with
  | nil =>
    intro before _ _
    show findServiceGo before true [] = none
    rw [findServiceGo]
    simp [servicePat]
  | cons p ls' ih =>
    intro before hterm hnp
    cases ls' with
    | nil =>
      exact findServiceGo_last p before (hterm p (List.mem_cons_self p []))
        (hnp p (List.mem_cons_self p []))
    | cons q ls'' =>
      rw [joinNl_cons p (q :: ls'') (by simp)]
      rw [findServiceGo_line p (joinNl (q :: ls'')) before
        (hterm p (List.mem_cons_self p _)) (hnp p (List.mem_cons_self p _))]
      exact ih _ (fun x hx => hterm x (List.mem_cons_of_mem p hx))
        (fun x hx => hnp x (List.mem_cons_of_mem p hx))

/-- The matched run of a terminator-free line followed by a newline. -/
theorem takeWhile_line (y : List Char) :
    ∀ l : List Char, (∀ c ∈ l, isLineTerm c = false) →
      (l ++ '\n' :: y).takeWhile (fun c => !(isLineTerm c)) = l ∧
      (l ++ '\n' :: y).dropWhile (fun c => !(isLineTerm c)) = '\n' :: y := by
  intro l
  induction l with
  | nil =>
    intro _
    rw [List.nil_append]
    constructor
    · rw [List.takeWhile_cons]
      simp [isLineTerm]
    · rw [List.dropWhile_cons]
      simp [isLineTerm]
  | cons c lt ih =>
    intro hterm
    have hc : isLineTerm c = false := hterm c (List.mem_cons_self c lt)
    obtain ⟨h1, h2⟩ := ih (fun x hx => hterm x (List.mem_cons_of_mem c hx))
    constructor
    · rw [List.cons_append, List.takeWhile_cons, hc]
      simp only [Bool.not_false, if_true]
      rw [h1]
    · rw [List.cons_append, List.dropWhile_cons, hc]
      simp only [Bool.not_false, if_true]
      rw [h2]

/-- The matched run of a final terminator-free line. -/
theorem takeWhile_line_all :
    ∀ l : List Char, (∀ c ∈ l, isLineTerm c = false) →
      l.takeWhile (fun c => !(isLineTerm c)) = l ∧
      l.dropWhile (fun c => !(isLineTerm c)) = [] := by
  intro l
  induction l with
  | nil => intro _; exact ⟨rfl, rfl⟩
  | cons c lt ih =>
    intro hterm
    have hc : isLineTerm c = false := hterm c (List.mem_cons_self c lt)
    obtain ⟨h1, h2⟩ := ih (fun x hx => hterm x (List.mem_cons_of_mem c hx))
    constructor
    · rw [List.takeWhile_cons, hc]
      simp only [Bool.not_false, if_true]
      rw [h1]
    · rw [List.dropWhile_cons, hc]
      simp only [Bool.not_false, if_true]
      rw [h2]

/-- The spec-side rewrite is the identity when no line matches. -/
theorem replaceFirstServiceLine_no (name : List Char) :
    ∀ ls : List (List Char), (∀ p ∈ ls, List.isPrefixOf servicePat p = false) →
      replaceFirstServiceLine name ls = ls := by
  intro ls
  induction ls with
  | nil => intro _; rfl
  | cons p ls' ih =>
    intro hnp
    rw [replaceFirstServiceLine]
    rw [hnp p (List.mem_cons_self p ls')]
    simp only [Bool.false_eq_true, if_false]
    rw [ih (fun x hx => hnp x (List.mem_cons_of_mem p hx))]

/-- The spec-side rewrite replaces exactly the first matching line. -/
theorem replaceFirstServiceLine_found (name l : List Char) (post : List (List Char))
    (hl : List.isPrefixOf servicePat l = true) :
    ∀ pre : List (List Char), (∀ p ∈ pre, List.isPrefixOf servicePat p = false) →
      replaceFirstServiceLine name (pre ++ l :: post) =
        pre ++ ("service: ".toList ++ name) :: post := by
  intro pre
  induction pre with
  | nil =>
    intro _
    rw [List.nil_append, List.nil_append, replaceFirstServiceLine, hl]
    simp
  | cons p pre' ih =>
    intro hnp
    rw [List.cons_append, replaceFirstServiceLine]
    rw [hnp p (List.mem_cons_self p pre')]
    simp only [Bool.false_eq_true, if_false]
    rw [ih (fun x hx => hnp x (List.mem_cons_of_mem p hx))]
    rfl

/-- Joining a decomposed line list splits at the decomposition point. -/
theorem joinNl_append_cons (x : List Char) (post : List (List Char)) :
    ∀ pre : List (List Char),
      joinNl (pre ++ x :: post) = linesPre pre ++ joinNl (x :: post) := by
  intro pre
  induction pre with
  | nil => rw [List.nil_append, linesPre, List.nil_append]
  | cons p pre' ih =>
    rw [List.cons_append, joinNl_cons p (pre' ++ x :: post) (by simp), ih, linesPre]
    rw [List.append_assoc]
    rfl

/-- A line list containing a matching line decomposes at the first match. -/
theorem exists_first_service (ls : List (List Char))
    (h : ls.any (fun l => List.isPrefixOf servicePat l) = true) :
    ∃ pre l post, ls = pre ++ l :: post ∧
      (∀ p ∈ pre, List.isPrefixOf servicePat p = false) ∧
      List.isPrefixOf servicePat l = true := by
  induction ls with
  | nil => simp at h
  | cons a ls' ih =>
    by_cases ha : List.isPrefixOf servicePat a = true
    · exact ⟨[], a, ls', rfl, by simp, ha⟩
    · rw [List.any_cons, Bool.or_eq_true] at h
      obtain ⟨pre, l, post, hdec, hpre, hl⟩ := ih (h.resolve_left ha)
      refine ⟨a :: pre, l, post, by rw [hdec]; rfl, ?_, hl⟩
      intro p hp
      rcases List.mem_cons.mp hp with rfl | hp'
      · exact Bool.not_eq_true _ ▸ (Bool.eq_false_iff.mpr ha)
      · exact hpre p hp'

/-- A `some` file is rewritten through the regex replacement. -/
theorem updateServerlessYml_some (content name : List Char) :
    updateServerlessYml (some content) name =
      some (replaceServiceRegex ("service: ".toList ++ name) content) := rfl

/-- Unfolding of the replacement when the scanner finds a match. -/
theorem replaceServiceRegex_found (repl content before fromMatch : List Char)
    (h : findService content = some (before, fromMatch)) :
    replaceServiceRegex repl content =
      before ++ expandRepl before (fromMatch.takeWhile (fun c => !(isLineTerm c)))
        (fromMatch.dropWhile (fun c => !(isLineTerm c))) repl ++
        fromMatch.dropWhile (fun c => !(isLineTerm c)) := by
  unfold replaceServiceRegex
  rw [h]

/-- Unfolding of the replacement when the scanner finds nothing. -/
theorem replaceServiceRegex_none (repl content : List Char)
    (h : findService content = none) :
    replaceServiceRegex repl content = content := by
  unfold replaceServiceRegex
  rw [h]

/-- C3 (amended): for every content, given as its newline-separated lines,
and every project name containing no dollar sign, `updateServerlessYml`
replaces only the first line carrying the `service:` prefix with the line
`service: <projectName>`, leaves every other line byte-identical, leaves
the content unchanged when no line matches, and is a no-op when the file
is absent. -/
theorem updateServerlessYml_spec (ls : List (List Char)) (name : List Char)
    (hterm : ∀ l ∈ ls, ∀ c ∈ l, isLineTerm c = false)
    (hnd : '$' ∉ name) :
    updateServerlessYml (some (joinNl ls)) name =
      some (joinNl (replaceFirstServiceLine name ls))
    ∧ updateServerlessYml none name = none := by
  refine ⟨?_, rfl⟩
  have hrepl : '$' ∉ ("service: ".toList ++ name) := by
    intro hmem
    rcases List.mem_append.mp hmem with h1 | h2
    · exact absurd h1 (by decide)
    · exact hnd h2
  rw [updateServerlessYml_some]
  by_cases hm : ls.any (fun l => List.isPrefixOf servicePat l) = true
  · obtain ⟨pre, l, post, rfl, hpre, hl⟩ := exists_first_service ls hm
    have htermPre : ∀ p ∈ pre, ∀ c ∈ p, isLineTerm c = false :=
      fun p hp => hterm p (List.mem_append_left _ hp)
    have htermL : ∀ c ∈ l, isLineTerm c = false :=
      hterm l (List.mem_append_right _ (List.mem_cons_self l post))
    have hf : findService (joinNl (pre ++ l :: post)) =
        some (linesPre pre, joinNl (l :: post)) := by
      unfold findService
      rw [findService_lines_match pre l post [] htermPre hpre hl]
      rfl
    rw [replaceServiceRegex_found _ _ _ _ hf]
    cases post with
    | nil =>
      obtain ⟨ht, hd⟩ := takeWhile_line_all l htermL
      have hj : joinNl [l] = l := rfl
      rw [replaceFirstServiceLine_found name l [] hl pre hpre]
      rw [joinNl_append_cons ("service: ".toList ++ name) [] pre]
      rw [hj, ht, hd, expandRepl_no_dollar _ _ _ _ hrepl]
      have hj2 : joinNl [("service: ".toList ++ name)] = "service: ".toList ++ name := rfl
      rw [hj2, List.append_nil]
    | cons q post' =>
      obtain ⟨ht, hd⟩ := takeWhile_line (joinNl (q :: post')) l htermL
      have hj : joinNl (l :: q :: post') = l ++ '\n' :: joinNl (q :: post') := rfl
      rw [replaceFirstServiceLine_found name l (q :: post') hl pre hpre]
      rw [joinNl_append_cons ("service: ".toList ++ name) (q :: post') pre]
      rw [hj, ht, hd, expandRepl_no_dollar _ _ _ _ hrepl]
      have hj2 : joinNl (("service: ".toList ++ name) :: q :: post') =
          ("service: ".toList ++ name) ++ '\n' :: joinNl (q :: post') := rfl
      rw [hj2]
      rw [List.append_assoc]
  · have hnp : ∀ p ∈ ls, List.isPrefixOf servicePat p = false := by
      intro p hp
      rw [Bool.eq_false_iff]
      intro hc
      exact hm (List.any_eq_true.mpr ⟨p, hp, hc⟩)
    have hf : findService (joinNl ls) = none := by
      unfold findService
      exact findService_lines_none ls [] hterm hnp
    rw [replaceServiceRegex_none _ _ hf]
    rw [replaceFirstServiceLine_no name ls hnp]

/-- Witness for `updateServerlessYml_spec` on a concrete two-line file. -/
theorem updateServerlessYml_spec_witness :
    updateServerlessYml (some (joinNl ["service: starter".toList, "provider:".toList]))
        "my-service".toList =
      some (joinNl (replaceFirstServiceLine "my-service".toList
        ["service: starter".toList, "provider:".toList])) :=
  (updateServerlessYml_spec ["service: starter".toList, "provider:".toList]
    "my-service".toList (by decide) (by decide)).1

/-- C3 counterexample: for the project name `$&`, the JavaScript
replacement-pattern expansion substitutes the matched line, so the result
is not the line `service: <projectName>` the claim specifies. -/
theorem updateServerlessYml_claim_cex :
    updateServerlessYml (some "service: old\nx".toList) "$&".toList =
      some "service: service: old\nx".toList
    ∧ "service: service: old\nx".toList ≠ "service: $&\nx".toList :=
  ⟨by decide, by decide⟩

/-- Filesystem trees: a node is a plain file with its byte content or a
directory with named entries.  Symbolic links, permissions and timestamps
are outside the source's copying contract and are not modelled. -/
inductive FsNode where
  | file (content : String)
  | dir (entries : List (String × FsNode))

/-- Directory-entry lookup by name (first match). -/
def getEntry : List (String × FsNode) → String → Option FsNode
  | [], _ => none
  | (k, v) :: t, s => if k = s then some v else getEntry t s

/-- Replace the entry named `s` (or append it when absent). -/
def setEntry : List (String × FsNode) → String → FsNode → List (String × FsNode)
  | [], s, n => [(s, n)]
  | (k, v) :: t, s, n => if k = s then (s, n) :: t else (k, v) :: setEntry t s n

/-- Remove the entry named `s`. -/
def removeEntry : List (String × FsNode) → String → List (String × FsNode)
  | [], _ => []
  | (k, v) :: t, s => if k = s then removeEntry t s else (k, v) :: removeEntry t s

/-- Resolve a path (list of segments) in a tree. -/
def lookupFs : FsNode → List String → Option FsNode
  | n, [] => some n
  | .file _, _ :: _ => none
  | .dir es, s :: p =>
    match getEntry es s with
    | some n => lookupFs n p
    | none => none

/-- Model of `fs.existsSync`. -/
def existsFs (fs : FsNode) (p : List String) : Bool := (lookupFs fs p).isSome

/-- Model of `fs.mkdirSync(p, recursive)` as a pure tree transform:
creates the directory and any missing parents; an existing directory on
the way is kept; a file anywhere on the chain (or at the target) makes
the call throw, modelled as `none`. -/
def mkdirp : FsNode → List String → Option FsNode
  | .dir es, [] => some (.dir es)
  | .file _, [] => none
  | .file _, _ :: _ => none
  | .dir es, s :: p =>
    match getEntry es s with
    | some child => (mkdirp child p).map (fun c => .dir (setEntry es s c))
    | none => (mkdirp (.dir []) p).map (fun c => .dir (setEntry es s c))

/-- Write file content at a path whose parent chain must already exist as
directories (`fs.copyFileSync` does not create parents); overwrites an
existing file, throws (`none`) on a directory target, a missing parent,
or a file on the parent chain. -/
def writeFileAt : FsNode → List String → String → Option FsNode
  | _, [], _ => none
  | .file _, _ :: _, _ => none
  | .dir es, [s], c =>
    match getEntry es s with
    | some (.dir _) => none
    | _ => some (.dir (setEntry es s (.file c)))
  | .dir es, s :: q :: p, c =>
    match getEntry es s with
    | some child => (writeFileAt child (q :: p) c).map (fun n => FsNode.dir (setEntry es s n))
    | none => none

/-- Model of `fs.copyFileSync(src, dest)`: read the file at `src` and
write its content at `dest`; a missing or directory source throws. -/
def copyFileFs (fs : FsNode) (src dest : List String) : Option FsNode :=
  match lookupFs fs src with
  | some (.file c) => writeFileAt fs dest c
  | _ => none

/-- Model of `fs.rmSync(p, recursive, force)` on a tree: drop the subtree
at `p`; a missing path leaves the tree unchanged (`force`).  Removal of
the root (`p = []`) is outside the model. -/
def removeAt : FsNode → List String → FsNode
  | n, [] => n
  | .file c, _ :: _ => .file c
  | .dir es, [s] => .dir (removeEntry es s)
  | .dir es, s :: q :: p =>
    match getEntry es s with
    | some child => .dir (setEntry es s (removeAt child (q :: p)))
    | none => .dir es

/-- Model of `cleanupTemp` from the source: remove the path recursively
when it exists, otherwise do nothing. -/
def cleanupTemp (fs : FsNode) (p : List String) : FsNode :=
  if existsFs fs p then removeAt fs p else fs

/-- Structured error of `createProjectDirectory`: the source's own
`not empty` throw, or the `ENOTDIR` the filesystem raises when a file
blocks the operation. -/
inductive CreateErr where
  | notEmpty (path : List String)
  | notDir (path : List String)
deriving DecidableEq

/-- Render a segment path the way the source interpolates it. -/
def renderPath (p : List String) : List Char := '/' :: joinSegs (p.map String.toList)

/-- Message text of each `CreateErr`, with the source's exact wording for
the non-empty case. -/
def renderCreateErr : CreateErr → List Char
  | .notEmpty p => "Directory \"".toList ++ renderPath p ++ "\" exists and is not empty.".toList
  | .notDir p => "ENOTDIR: not a directory, mkdir ".toList ++ renderPath p

/-- Model of `createProjectDirectory` from the source: an existing
non-empty directory throws the `not empty` error, an existing empty
directory is accepted as is, an existing file makes `readdirSync` throw
`ENOTDIR`, and a missing path is created with its parents (which throws
`ENOTDIR` when a file blocks the chain). -/
def createProjectDirectory (fs : FsNode) (p : List String) : Except CreateErr FsNode :=
  if existsFs fs p then
    match lookupFs fs p with
    | some (.dir es) => if es.length = 0 then .ok fs else .error (.notEmpty p)
    | _ => .error (.notDir p)
  else
    match mkdirp fs p with
    | some fs2 => .ok fs2
    | none => .error (.notDir p)

/-- Directory test of a snapshot entry (`entry.isDirectory()`). -/
def isDirNode : FsNode → Bool
  | .dir _ => true
  | .file _ => false

/-- The entry loop of `copyDir` over the snapshot of names and kinds
returned by `readdirSync(src, withFileTypes)`: `step` is the recursive
directory copy and `copyF` the file copy. -/
def copyEntriesGo (step copyF : FsNode → List String → List String → Option FsNode) :
    FsNode → List String → List String → List (String × Bool) → Option FsNode
  | fs, _, _, [] => some fs
  | fs, src, dest, (name, isD) :: rest =>
    match (if isD then step fs (src ++ [name]) (dest ++ [name])
           else copyF fs (src ++ [name]) (dest ++ [name])) with
    | none => none
    | some fs2 => copyEntriesGo step copyF fs2 src dest rest

/-- Model of `copyDir` from the source, with a fuel parameter standing in
for the termination the real recursion gets from the finite directory
tree: create `dest` when missing, read the entries of `src`, and copy
each entry — recursively for directories, by file copy otherwise. -/
def copyDirFs : Nat → FsNode → List String → List String → Option FsNode
  | 0 => fun _ _ _ => none
  | fuel + 1 => fun fs src dest =>
    match (if existsFs fs dest then some fs else mkdirp fs dest) with
    | none => none
    | some fs1 =>
      match lookupFs fs1 src with
      | some (.dir es) =>
        copyEntriesGo (copyDirFs fuel) copyFileFs fs1 src dest
          (es.map (fun e => (e.1, isDirNode e.2)))
      | _ => none

/-- Boolean path-extension test: `isPre p q` holds when `q` lies at or
below `p`. -/
def isPre : List String → List String → Bool
  | [], _ => true
  | _ :: _, [] => false
  | a :: p, b :: q => a == b && isPre p q

/-- Well-formedness of a tree to a given depth: entry names are distinct
at every level (as a real directory listing guarantees) and the tree is
exhausted within the fuel bound. -/
def wfFsN : Nat → FsNode → Bool
  | 0 => fun _ => false
  | n + 1 => fun node =>
    match node with
    | .file _ => true
    | .dir es => decide ((es.map Prod.fst).Nodup) && es.all (fun e => wfFsN n e.2)

/-- Every strict ancestor of the path is absent or a directory (the
condition for `mkdirSync(p, recursive)` not to hit a file). -/
def ancOkFs : FsNode → List String → Bool
  | _, [] => true
  | .file _, _ :: _ => false
  | .dir es, s :: p =>
    match getEntry es s with
    | some child => ancOkFs child p
    | none => true

example : copyDirFs 10
    (FsNode.dir [("tpl", FsNode.dir [("f.txt", FsNode.file "hello"), (".dot", FsNode.file "d"),
      ("sub", FsNode.dir [("n.txt", FsNode.file "n")])]), ("proj", FsNode.dir [])])
    ["tpl"] ["proj"] =
    some (FsNode.dir [("tpl", FsNode.dir [("f.txt", FsNode.file "hello"), (".dot", FsNode.file "d"),
      ("sub", FsNode.dir [("n.txt", FsNode.file "n")])]),
      ("proj", FsNode.dir [("f.txt", FsNode.file "hello"), (".dot", FsNode.file "d"),
      ("sub", FsNode.dir [("n.txt", FsNode.file "n")])])]) := rfl

example : cleanupTemp (FsNode.dir [("tmp", FsNode.dir [("x", FsNode.file "1")])]) ["tmp"] =
    FsNode.dir [] := rfl
example : cleanupTemp (FsNode.dir [("keep", FsNode.file "k")]) ["gone"] =
    FsNode.dir [("keep", FsNode.file "k")] := rfl
example : createProjectDirectory (FsNode.dir []) ["proj"] =
    .ok (FsNode.dir [("proj", FsNode.dir [])]) := rfl
example : createProjectDirectory (FsNode.dir [("proj", FsNode.dir [("a", FsNode.file "x")])])
    ["proj"] = .error (.notEmpty ["proj"]) := rfl
example : createProjectDirectory (FsNode.dir [("a", FsNode.file "x")]) ["a", "b"] =
    .error (.notDir ["a", "b"]) := rfl

/-- Lookup after setting the same name. -/
theorem getEntry_setEntry_same : ∀ (es : List (String × FsNode)) (s : String) (n : FsNode),
    getEntry (setEntry es s n) s = some n := by
  intro es s n
  induction es with
  | nil => rw [setEntry, getEntry, if_pos rfl]
  | cons p t ih =>
    rcases p with ⟨k, v⟩
    rw [setEntry]
    by_cases hk : k = s
    · rw [if_pos hk, getEntry, if_pos rfl]
    · rw [if_neg hk, getEntry, if_neg hk]
      exact ih

/-- Lookup of a different name after a set. -/
theorem getEntry_setEntry_other : ∀ (es : List (String × FsNode)) (s t : String) (n : FsNode),
    t ≠ s → getEntry (setEntry es s n) t = getEntry es t := by
  intro es s t n hts
  induction es with
  | nil =>
    rw [setEntry]
    show (if s = t then some n else getEntry [] t) = getEntry [] t
    rw [if_neg (fun h => hts h.symm)]
  | cons p es' ih =>
    rcases p with ⟨k, v⟩
    rw [setEntry]
    by_cases hk : k = s
    · rw [if_pos hk, getEntry, getEntry, if_neg (fun h => hts h.symm)]
      rw [if_neg (fun h : k = t => hts (hk ▸ h : s = t).symm)]
    · rw [if_neg hk, getEntry, getEntry]
      by_cases hkt : k = t
      · rw [if_pos hkt, if_pos hkt]
      · rw [if_neg hkt, if_neg hkt]
        exact ih

/-- Setting a present name with its current value changes nothing. -/
theorem setEntry_self : ∀ (es : List (String × FsNode)) (s : String) (n : FsNode),
    getEntry es s = some n → setEntry es s n = es := by
  intro es s n h
  induction es with
  | nil => cases h
  | cons p es' ih =>
    rcases p with ⟨k, v⟩
    rw [getEntry] at h
    rw [setEntry]
    by_cases hk : k = s
    · rw [if_pos hk] at h
      rw [if_pos hk, hk]
      cases h
      rfl
    · rw [if_neg hk] at h
      rw [if_neg hk, ih h]

/-- Lookup after removing the same name. -/
theorem getEntry_removeEntry_same : ∀ (es : List (String × FsNode)) (s : String),
    getEntry (removeEntry es s) s = none := by
  intro es s
  induction es with
  | nil => rfl
  | cons p es' ih =>
    rcases p with ⟨k, v⟩
    rw [removeEntry]
    by_cases hk : k = s
    · rw [if_pos hk]
      exact ih
    · rw [if_neg hk, getEntry, if_neg hk]
      exact ih

/-- Lookup of a different name after a removal. -/
theorem getEntry_removeEntry_other : ∀ (es : List (String × FsNode)) (s t : String),
    t ≠ s → getEntry (removeEntry es s) t = getEntry es t := by
  intro es s t hts
  induction es with
  | nil => rfl
  | cons p es' ih =>
    rcases p with ⟨k, v⟩
    rw [removeEntry]
    by_cases hk : k = s
    · rw [if_pos hk, getEntry, ih]
      rw [if_neg (fun h : k = t => hts (hk ▸ h : s = t).symm)]
    · rw [if_neg hk, getEntry, getEntry]
      by_cases hkt : k = t
      · rw [if_pos hkt, if_pos hkt]
      · rw [if_neg hkt, if_neg hkt]
        exact ih

/-- Lookup in a directory by head segment. -/
theorem lookupFs_cons (es : List (String × FsNode)) (s : String) (p : List String) :
    lookupFs (FsNode.dir es) (s :: p) =
      (match getEntry es s with
       | some n => lookupFs n p
       | none => none) := rfl

/-- Path lookup decomposes over path concatenation. -/
theorem lookupFs_append : ∀ (p : List String) (fs : FsNode) (q : List String),
    lookupFs fs (p ++ q) = (lookupFs fs p).bind (fun n => lookupFs n q) := by
  intro p
  induction p with
  | nil => intro fs q; cases fs <;> rfl
  | cons s p' ih =>
    intro fs q
    cases fs with
    | file c => rfl
    | dir es =>
      rw [List.cons_append, lookupFs_cons, lookupFs_cons]
      cases getEntry es s with
      | some n => exact ih n q
      | none => rfl

/-- Any strict ancestor of an existing node is a directory. -/
theorem ancestor_dir : ∀ (p : List String) (fs : FsNode) (q : List String) (n : FsNode),
    lookupFs fs (p ++ q) = some n → q ≠ [] → ∃ es, lookupFs fs p = some (.dir es) := by
  intro p
  induction p with
  | nil =>
    intro fs q n h hq
    cases fs with
    | file c =>
      cases q with
      | nil => exact absurd rfl hq
      | cons a q' => cases h
    | dir es => exact ⟨es, rfl⟩
  | cons s p' ih =>
    intro fs q n h hq
    cases fs with
    | file c => cases h
    | dir es =>
      rw [List.cons_append, lookupFs_cons] at h
      rw [lookupFs_cons]
      cases hg : getEntry es s with
      | some child =>
        rw [hg] at h
        exact ih child q n h hq
      | none =>
        rw [hg] at h
        cases h

/-- `isPre` captures path extension. -/
theorem isPre_iff : ∀ p q : List String, isPre p q = true ↔ ∃ r, p ++ r = q := by
  intro p
  induction p with
  | nil =>
    intro q
    constructor
    · intro _
      exact ⟨q, rfl⟩
    · intro _
      rfl
  | cons a p' ih =>
    intro q
    cases q with
    | nil =>
      constructor
      · intro h
        cases h
      · rintro ⟨r, hr⟩
        cases hr
    | cons b q' =>
      rw [isPre, Bool.and_eq_true, beq_iff_eq, ih q']
      constructor
      · rintro ⟨rfl, r, rfl⟩
        exact ⟨r, rfl⟩
      · rintro ⟨r, hr⟩
        rw [List.cons_append] at hr
        cases hr
        exact ⟨rfl, r, rfl⟩

/-- Removal really removes: after `removeAt` on an existing non-root path
the path no longer resolves. -/
theorem removeAt_removes : ∀ (p : List String) (fs : FsNode), p ≠ [] →
    existsFs fs p = true → lookupFs (removeAt fs p) p = none := by
  intro p
  induction p with
  | nil => intro fs h _; exact absurd rfl h
  | cons s p' ih =>
    intro fs _ hex
    cases fs with
    | file c =>
      exfalso
      have hl : lookupFs (FsNode.file c) (s :: p') = none := rfl
      rw [existsFs, hl] at hex
      cases hex
    | dir es =>
      cases p' with
      | nil =>
        have hr : removeAt (FsNode.dir es) [s] = .dir (removeEntry es s) := rfl
        rw [hr, lookupFs_cons, getEntry_removeEntry_same]
      | cons q p'' =>
        have hr : removeAt (FsNode.dir es) (s :: q :: p'') =
            (match getEntry es s with
             | some child => FsNode.dir (setEntry es s (removeAt child (q :: p'')))
             | none => FsNode.dir es) := rfl
        cases hg : getEntry es s with
        | none =>
          exfalso
          rw [existsFs, lookupFs_cons, hg] at hex
          cases hex
        | some child =>
          rw [hr, hg, lookupFs_cons, getEntry_setEntry_same]
          refine ih child (by simp) ?_
          rw [existsFs, lookupFs_cons, hg] at hex
          exact hex

/-- C7: `cleanupTemp` on an existing (non-root) path removes the path and
everything under it — afterwards neither the path nor anything below it
resolves — and on a missing path it is a no-op returning the filesystem
unchanged, raising no error. -/
theorem cleanupTemp_spec (fs : FsNode) (p : List String) (hne : p ≠ []) :
    (existsFs fs p = true → ∀ r, lookupFs (cleanupTemp fs p) (p ++ r) = none)
    ∧ (existsFs fs p = false → cleanupTemp fs p = fs) := by
  constructor
  · intro hex r
    rw [cleanupTemp, if_pos hex]
    rw [lookupFs_append, removeAt_removes p fs hne hex]
    rfl
  · intro hex
    rw [cleanupTemp, hex]
    rfl

/-- Witness for `cleanupTemp_spec`: removing a populated directory makes
it and its content unresolvable; a missing path is untouched. -/
theorem cleanupTemp_spec_witness :
    lookupFs (cleanupTemp (FsNode.dir [("tmp", FsNode.dir [("x", FsNode.file "1")])])
        ["tmp"]) (["tmp"] ++ ["x"]) = none
    ∧ cleanupTemp (FsNode.dir [("keep", FsNode.file "k")]) ["gone"] =
        FsNode.dir [("keep", FsNode.file "k")] :=
  ⟨(cleanupTemp_spec (FsNode.dir [("tmp", FsNode.dir [("x", FsNode.file "1")])]) ["tmp"]
      (by decide)).1 rfl ["x"],
   (cleanupTemp_spec (FsNode.dir [("keep", FsNode.file "k")]) ["gone"] (by decide)).2 rfl⟩

/-- Unfolding of `mkdirp` at a directory and a non-empty path. -/
theorem mkdirp_cons (es : List (String × FsNode)) (s : String) (p : List String) :
    mkdirp (FsNode.dir es) (s :: p) =
      (match getEntry es s with
       | some child => (mkdirp child p).map (fun c => FsNode.dir (setEntry es s c))
       | none => (mkdirp (FsNode.dir []) p).map (fun c => FsNode.dir (setEntry es s c))) := rfl

/-- Unfolding of `ancOkFs` at a directory and a non-empty path. -/
theorem ancOkFs_cons (es : List (String × FsNode)) (s : String) (p : List String) :
    ancOkFs (FsNode.dir es) (s :: p) =
      (match getEntry es s with
       | some child => ancOkFs child p
       | none => true) := rfl

/-- Unfolding of `isPre` on two non-empty paths. -/
theorem isPre_cons_cons (a b : String) (p q : List String) :
    isPre (a :: p) (b :: q) = ((a == b) && isPre p q) := rfl

/-- Extension tests under a shared head segment. -/
theorem isPre_cons_same (t : String) (p q : List String)
    (h : isPre (t :: p) (t :: q) = false) : isPre p q = false := by
  rw [isPre_cons_cons] at h
  simpa using h

/-- The empty directory satisfies the ancestor condition for any path. -/
theorem ancOk_empty_dir : ∀ p : List String, ancOkFs (FsNode.dir []) p = true := by
  intro p
  cases p <;> rfl

/-- Lookups inside the empty directory are absent or the directory itself. -/
theorem lookup_empty_dir : ∀ p : List String,
    lookupFs (FsNode.dir []) p = none ∨ ∃ es0, lookupFs (FsNode.dir []) p = some (.dir es0) := by
  intro p
  cases p with
  | nil => exact Or.inr ⟨[], rfl⟩
  | cons s p' => exact Or.inl rfl

/-- Specification of `mkdirp`: under the ancestor condition and a target
that is absent or already a directory, it succeeds; it changes no path
incomparable with the target; an absent target becomes an empty
directory; an existing directory target leaves the tree untouched. -/
theorem mkdirp_spec : ∀ (p : List String) (fs : FsNode),
    ancOkFs fs p = true →
    (lookupFs fs p = none ∨ ∃ es0, lookupFs fs p = some (.dir es0)) →
    ∃ fs2, mkdirp fs p = some fs2
      ∧ (∀ q, isPre p q = false → isPre q p = false → lookupFs fs2 q = lookupFs fs q)
      ∧ (lookupFs fs p = none → lookupFs fs2 p = some (.dir []))
      ∧ (∀ es0, lookupFs fs p = some (.dir es0) → fs2 = fs) := by
  intro p
  induction p with
  | nil =>
    intro fs _ hex
    cases fs with
    | file c =>
      rcases hex with hnone | ⟨es0, hes⟩
      · cases hnone
      · cases hes
    | dir es =>
      refine ⟨.dir es, rfl, fun q _ _ => rfl, ?_, fun es1 _ => rfl⟩
      intro hnone
      cases hnone
  | cons s p' ih =>
    intro fs hanc hex
    cases fs with
    | file c => cases hanc
    | dir es =>
      rw [ancOkFs_cons] at hanc
      cases hg : getEntry es s with
      | some child =>
        rw [hg] at hanc
        have hlk : lookupFs (FsNode.dir es) (s :: p') = lookupFs child p' := by
          rw [lookupFs_cons, hg]
        rw [hlk] at hex
        obtain ⟨c2, hmk, hframe, hnone, hsame⟩ := ih child hanc hex
        refine ⟨.dir (setEntry es s c2), ?_, ?_, ?_, ?_⟩
        · rw [mkdirp_cons, hg]
          show (mkdirp child p').map (fun c => FsNode.dir (setEntry es s c)) =
            some (FsNode.dir (setEntry es s c2))
          rw [hmk]
          rfl
        · intro q hq1 hq2
          cases q with
          | nil => cases hq2
          | cons t q' =>
            by_cases hts : t = s
            · subst hts
              have hq1' : isPre p' q' = false := isPre_cons_same t p' q' hq1
              have hq2' : isPre q' p' = false := isPre_cons_same t q' p' hq2
              rw [lookupFs_cons, lookupFs_cons, getEntry_setEntry_same, hg]
              exact hframe q' hq1' hq2'
            · rw [lookupFs_cons, lookupFs_cons,
                getEntry_setEntry_other es s t c2 hts]
        · intro hn
          rw [hlk] at hn
          rw [lookupFs_cons, getEntry_setEntry_same]
          exact hnone hn
        · intro es0 hes0
          rw [hlk] at hes0
          rw [hsame es0 hes0, setEntry_self es s child hg]
      | none =>
        obtain ⟨c2, hmk, hframe, hnone, hsame⟩ :=
          ih (.dir []) (ancOk_empty_dir p') (lookup_empty_dir p')
        refine ⟨.dir (setEntry es s c2), ?_, ?_, ?_, ?_⟩
        · rw [mkdirp_cons, hg]
          show (mkdirp (FsNode.dir []) p').map (fun c => FsNode.dir (setEntry es s c)) =
            some (FsNode.dir (setEntry es s c2))
          rw [hmk]
          rfl
        · intro q hq1 hq2
          cases q with
          | nil => cases hq2
          | cons t q' =>
            by_cases hts : t = s
            · subst hts
              have hq1' : isPre p' q' = false := isPre_cons_same t p' q' hq1
              have hq2' : isPre q' p' = false := isPre_cons_same t q' p' hq2
              rw [lookupFs_cons, lookupFs_cons, getEntry_setEntry_same, hg]
              show lookupFs c2 q' = none
              rw [hframe q' hq1' hq2']
              cases q' with
              | nil => simp [isPre] at hq2'
              | cons u q'' => rfl
            · rw [lookupFs_cons, lookupFs_cons,
                getEntry_setEntry_other es s t c2 hts]
        · intro _
          rw [lookupFs_cons, getEntry_setEntry_same]
          show lookupFs c2 p' = some (FsNode.dir [])
          cases p' with
          | nil =>
            rw [hsame [] rfl]
            rfl
          | cons u p'' =>
            exact hnone rfl
        · intro es0 hes0
          rw [lookupFs_cons, hg] at hes0
          cases hes0

/-- A matched position yields containment. -/
theorem containsSeq_here (pat l : List Char) (h : List.isPrefixOf pat l = true) :
    containsSeq pat l = true := by
  cases l with
  | nil =>
    cases pat with
    | nil => rfl
    | cons a t => cases h
  | cons c t => rw [containsSeq, h, Bool.true_or]

/-- Any list starts with itself. -/
theorem isPrefixOf_self_append : ∀ l t : List Char, List.isPrefixOf l (l ++ t) = true := by
  intro l t
  rw [List.isPrefixOf_iff_prefix]
  exact List.prefix_append l t

/-- Unfolding of `createProjectDirectory` on a missing path. -/
theorem createProjectDirectory_not_exists (fs : FsNode) (p : List String)
    (h : existsFs fs p = false) :
    createProjectDirectory fs p =
      (match mkdirp fs p with
       | some fs2 => .ok fs2
       | none => .error (.notDir p)) := by
  rw [createProjectDirectory, h]
  rfl

/-- Unfolding of `createProjectDirectory` on an existing directory. -/
theorem createProjectDirectory_dir (fs : FsNode) (p : List String)
    (es : List (String × FsNode)) (h : lookupFs fs p = some (.dir es)) :
    createProjectDirectory fs p =
      (if es.length = 0 then .ok fs else .error (.notEmpty p)) := by
  have hex : existsFs fs p = true := by rw [existsFs, h]; rfl
  rw [createProjectDirectory, hex, h]
  rfl

/-- Unfolding of `createProjectDirectory` on an existing file. -/
theorem createProjectDirectory_file (fs : FsNode) (p : List String)
    (c : String) (h : lookupFs fs p = some (.file c)) :
    createProjectDirectory fs p = .error (.notDir p) := by
  have hex : existsFs fs p = true := by rw [existsFs, h]; rfl
  rw [createProjectDirectory, hex, h]
  rfl

/-- C5 (amended): `createProjectDirectory` creates the directory (with any
missing parents) and succeeds when the path does not exist, provided no
strict ancestor of the path is an existing file; it succeeds silently
without modification on an existing empty directory; it fails with the
`not empty` error naming the path exactly when the path is an existing
non-empty directory; and that error text contains `not empty` and the
path. -/
theorem createProjectDirectory_spec (fs : FsNode) (p : List String) :
    (lookupFs fs p = none → ancOkFs fs p = true →
      ∃ fs2, createProjectDirectory fs p = .ok fs2 ∧ lookupFs fs2 p = some (.dir []))
    ∧ (lookupFs fs p = some (.dir []) → createProjectDirectory fs p = .ok fs)
    ∧ (∀ es, es ≠ [] → lookupFs fs p = some (.dir es) →
        createProjectDirectory fs p = .error (.notEmpty p))
    ∧ (∀ q, createProjectDirectory fs p = .error (.notEmpty q) →
        q = p ∧ ∃ es, es ≠ [] ∧ lookupFs fs p = some (.dir es))
    ∧ containsSeq "not empty".toList (renderCreateErr (.notEmpty p)) = true
    ∧ containsSeq (renderPath p) (renderCreateErr (.notEmpty p)) = true := by
  refine ⟨?_, ?_, ?_, ?_, ?_, ?_⟩
  · intro hnone hanc
    have hex : existsFs fs p = false := by rw [existsFs, hnone]; rfl
    obtain ⟨fs2, hmk, _, hmade, _⟩ := mkdirp_spec p fs hanc (Or.inl hnone)
    refine ⟨fs2, ?_, hmade hnone⟩
    rw [createProjectDirectory_not_exists fs p hex, hmk]
  · intro h
    rw [createProjectDirectory_dir fs p [] h]
    rfl
  · intro es hes h
    rw [createProjectDirectory_dir fs p es h, if_neg]
    intro hlen
    exact hes (List.length_eq_zero.mp hlen)
  · intro q hq
    by_cases hex : existsFs fs p = true
    · rw [existsFs, Option.isSome_iff_exists] at hex
      obtain ⟨n, hn⟩ := hex
      cases n with
      | file c =>
        rw [createProjectDirectory_file fs p c hn] at hq
        cases hq
      | dir es =>
        rw [createProjectDirectory_dir fs p es hn] at hq
        by_cases hlen : es.length = 0
        · rw [if_pos hlen] at hq
          cases hq
        · rw [if_neg hlen] at hq
          cases hq
          exact ⟨rfl, es, fun h0 => hlen (by rw [h0]; rfl), hn⟩
    · rw [Bool.not_eq_true] at hex
      rw [createProjectDirectory_not_exists fs p hex] at hq
      cases hmk : mkdirp fs p with
      | some fs2 =>
        rw [hmk] at hq
        cases hq
      | none =>
        rw [hmk] at hq
        cases hq
  · exact containsSeq_append_right _ _ _ (by decide)
  · show containsSeq (renderPath p)
      (("Directory \"".toList ++ renderPath p) ++ "\" exists and is not empty.".toList) = true
    rw [List.append_assoc]
    exact containsSeq_append_right _ _ _
      (containsSeq_here _ _ (isPrefixOf_self_append _ _))

/-- C5 counterexample: with an existing file `/a` and the request to
create `/a/b`, the path does not exist, yet the call fails with the
not-a-directory error instead of creating it, because a strict ancestor
is a file. -/
theorem createProjectDirectory_claim_cex :
    lookupFs (FsNode.dir [("a", FsNode.file "x")]) ["a", "b"] = none
    ∧ createProjectDirectory (FsNode.dir [("a", FsNode.file "x")]) ["a", "b"] =
        .error (.notDir ["a", "b"]) :=
  ⟨rfl, rfl⟩

/-- Witness for `createProjectDirectory_spec` on concrete trees. -/
theorem createProjectDirectory_spec_witness :
    (∃ fs2, createProjectDirectory (FsNode.dir []) ["proj"] = .ok fs2 ∧
      lookupFs fs2 ["proj"] = some (.dir []))
    ∧ createProjectDirectory (FsNode.dir [("proj", FsNode.dir [])]) ["proj"] =
        .ok (FsNode.dir [("proj", FsNode.dir [])])
    ∧ createProjectDirectory (FsNode.dir [("proj", FsNode.dir [("a", FsNode.file "x")])])
        ["proj"] = .error (.notEmpty ["proj"]) :=
  ⟨(createProjectDirectory_spec (FsNode.dir []) ["proj"]).1 rfl rfl,
   (createProjectDirectory_spec (FsNode.dir [("proj", FsNode.dir [])]) ["proj"]).2.1 rfl,
   (createProjectDirectory_spec (FsNode.dir [("proj", FsNode.dir [("a", FsNode.file "x")])])
     ["proj"]).2.2.1 [("a", FsNode.file "x")] (by simp) rfl⟩

/-- Lookup of the empty path. -/
theorem lookupFs_nil (n : FsNode) : lookupFs n [] = some n := by
  cases n <;> rfl

/-- The ancestor condition at the empty path. -/
theorem ancOkFs_nil (n : FsNode) : ancOkFs n [] = true := by
  cases n <;> rfl

/-- Every path extends itself. -/
theorem isPre_refl : ∀ p : List String, isPre p p = true := by
  intro p
  rw [isPre_iff]
  exact ⟨[], List.append_nil p⟩

/-- Appending extends. -/
theorem isPre_of_append (p r : List String) : isPre p (p ++ r) = true := by
  rw [isPre_iff]
  exact ⟨r, rfl⟩

/-- Extension cannot shrink the length. -/
theorem isPre_length : ∀ p q : List String, isPre p q = true → p.length ≤ q.length := by
  intro p q h
  rw [isPre_iff] at h
  obtain ⟨r, rfl⟩ := h
  rw [List.length_append]
  omega

/-- A longer path never extends into a shorter one. -/
theorem isPre_long (p q : List String) (h : q.length < p.length) : isPre p q = false := by
  cases hp : isPre p q
  · rfl
  · exact absurd (isPre_length p q hp) (by omega)

/-- A non-empty path does not extend into the empty one. -/
theorem isPre_ne_nil (p : List String) (h : p ≠ []) : isPre p [] = false := by
  cases p with
  | nil => exact absurd rfl h
  | cons a p' => rfl

/-- Extension is not recovered by appending one segment on each side. -/
theorem isPre_snoc : ∀ (p q : List String) (a b : String),
    isPre p q = false → isPre (p ++ [a]) (q ++ [b]) = false := by
  intro p
  induction p with
  | nil => intro q a b h; cases h
  | cons x p' ih =>
    intro q a b h
    cases q with
    | nil =>
      rw [List.cons_append, List.nil_append, isPre_cons_cons]
      rw [isPre_ne_nil (p' ++ [a]) (by simp), Bool.and_false]
    | cons y q' =>
      rw [isPre_cons_cons] at h
      rw [List.cons_append, List.cons_append, isPre_cons_cons]
      rw [Bool.and_eq_false_iff] at h
      rcases h with h | h
      · rw [h, Bool.false_and]
      · rw [ih q' a b h, Bool.and_false]

/-- What it means to extend into a path with one extra final segment. -/
theorem isPre_snoc_elim : ∀ (p q : List String) (b : String),
    isPre p (q ++ [b]) = true → isPre p q = true ∨ p = q ++ [b] := by
  intro p
  induction p with
  | nil => intro q b _; exact Or.inl rfl
  | cons x p' ih =>
    intro q b h
    cases q with
    | nil =>
      rw [List.nil_append] at h ⊢
      rw [isPre_cons_cons, Bool.and_eq_true, beq_iff_eq] at h
      obtain ⟨rfl, hp⟩ := h
      right
      cases p' with
      | nil => rfl
      | cons z p'' => cases hp
    | cons y q' =>
      rw [List.cons_append] at h ⊢
      rw [isPre_cons_cons, Bool.and_eq_true, beq_iff_eq] at h
      obtain ⟨rfl, hp⟩ := h
      rcases ih q' b hp with h1 | h1
      · left
        rw [isPre_cons_cons, h1, Bool.and_true, beq_self_eq_true]
      · right
        rw [h1]

/-- A shared base cancels in extension tests. -/
theorem isPre_append_cancel : ∀ (d x y : List String),
    isPre (d ++ x) (d ++ y) = isPre x y := by
  intro d
  induction d with
  | nil => intro x y; rfl
  | cons a d' ih =>
    intro x y
    rw [List.cons_append, List.cons_append, isPre_cons_cons, beq_self_eq_true,
      Bool.true_and, ih]

/-- Append one distinct segment to a shared base: no extension either way. -/
theorem isPre_snoc_same (d : List String) (a b : String) :
    isPre (d ++ [a]) (d ++ [b]) = (a == b) := by
  rw [isPre_append_cancel d [a] [b], isPre_cons_cons]
  cases a == b
  · rw [Bool.false_and]
  · rw [Bool.true_and]
    rfl

/-- Unfolding of well-formedness at positive fuel on a directory. -/
theorem wfFsN_succ_dir (n : Nat) (es : List (String × FsNode)) :
    wfFsN (n + 1) (.dir es) =
      (decide ((es.map Prod.fst).Nodup) && es.all (fun e => wfFsN n e.2)) := rfl

/-- Below an existing directory, the ancestor condition for one more
segment holds. -/
theorem ancOk_of_dir : ∀ (dest : List String) (fs : FsNode) (ds : List (String × FsNode))
    (name : String), lookupFs fs dest = some (.dir ds) →
    ancOkFs fs (dest ++ [name]) = true := by
  intro dest
  induction dest with
  | nil =>
    intro fs ds name h
    rw [lookupFs_nil] at h
    cases h
    rw [List.nil_append, ancOkFs_cons]
    cases getEntry ds name with
    | some child => exact ancOkFs_nil child
    | none => rfl
  | cons a dest' ih =>
    intro fs ds name h
    cases fs with
    | file c => cases h
    | dir es0 =>
      rw [lookupFs_cons] at h
      rw [List.cons_append, ancOkFs_cons]
      cases hg : getEntry es0 a with
      | some child =>
        rw [hg] at h
        exact ih child ds name h
      | none =>
        rw [hg] at h

/-- With distinct names, membership determines the entry lookup. -/
theorem getEntry_of_mem_nodup : ∀ (es : List (String × FsNode)) (k : String) (v : FsNode),
    (es.map Prod.fst).Nodup → (k, v) ∈ es → getEntry es k = some v := by
  intro es
  induction es with
  | nil => intro k v _ hm; cases hm
  | cons p es' ih =>
    intro k v hnd hm
    rcases p with ⟨k0, v0⟩
    rw [List.map_cons, List.nodup_cons] at hnd
    rcases List.mem_cons.mp hm with heq | hm'
    · cases heq
      rw [getEntry, if_pos rfl]
    · rw [getEntry]
      by_cases hk : k0 = k
      · exfalso
        subst hk
        exact hnd.1 (List.mem_map.mpr ⟨(k0, v), hm', rfl⟩)
      · rw [if_neg hk]
        exact ih k v hnd.2 hm'

/-- Lookup one segment below a directory node. -/
theorem lookupFs_child (fs : FsNode) (src : List String) (es : List (String × FsNode))
    (name : String) (v : FsNode) (hsrc : lookupFs fs src = some (.dir es))
    (hg : getEntry es name = some v) :
    lookupFs fs (src ++ [name]) = some v := by
  rw [lookupFs_append, hsrc]
  show lookupFs (FsNode.dir es) [name] = some v
  rw [lookupFs_cons, hg]
  exact lookupFs_nil v

/-- Unfolding of `writeFileAt` on a path of two or more segments. -/
theorem writeFileAt_cons2 (es0 : List (String × FsNode)) (a : String)
    (rest : List String) (hne : rest ≠ []) (c : String) :
    writeFileAt (.dir es0) (a :: rest) c =
      (match getEntry es0 a with
       | some child => (writeFileAt child rest c).map (fun n => FsNode.dir (setEntry es0 a n))
       | none => none) := by
  cases rest with
  | nil => exact absurd rfl hne
  | cons q p => rfl

/-- Specification of the file write used by the copy: with the parent an
existing directory and the target absent, it succeeds, the target then
holds the content, and no incomparable path changes. -/
theorem writeFileAt_spec : ∀ (base : List String) (fs : FsNode) (name : String) (c : String),
    (∃ ds, lookupFs fs base = some (.dir ds)) →
    lookupFs fs (base ++ [name]) = none →
    ∃ fs2, writeFileAt fs (base ++ [name]) c = some fs2
      ∧ lookupFs fs2 (base ++ [name]) = some (.file c)
      ∧ (∀ q, isPre (base ++ [name]) q = false → isPre q (base ++ [name]) = false →
          lookupFs fs2 q = lookupFs fs q) := by
  intro base
  induction base with
  | nil =>
    intro fs name c hdir habs
    obtain ⟨ds, hds⟩ := hdir
    rw [lookupFs_nil] at hds
    cases hds
    rw [List.nil_append] at habs
    rw [lookupFs_cons] at habs
    refine ⟨.dir (setEntry ds name (.file c)), ?_, ?_, ?_⟩
    · show writeFileAt (FsNode.dir ds) [name] c = _
      cases hg : getEntry ds name with
      | some child =>
        rw [hg] at habs
        have habs2 : lookupFs child [] = none := habs
        rw [lookupFs_nil] at habs2
        cases habs2
      | none =>
        show (match getEntry ds name with
              | some (.dir _) => none
              | _ => some (FsNode.dir (setEntry ds name (.file c)))) = _
        rw [hg]
    · rw [List.nil_append, lookupFs_cons, getEntry_setEntry_same]
      rfl
    · intro q hq1 hq2
      rw [List.nil_append] at hq1 hq2
      cases q with
      | nil => cases hq2
      | cons t q' =>
        by_cases ht : t = name
        · exfalso
          subst ht
          rw [isPre_cons_cons, beq_self_eq_true, Bool.true_and] at hq2
          cases q' with
          | nil => cases hq2
          | cons u q'' =>
            rw [isPre_cons_cons, beq_self_eq_true, Bool.true_and] at hq1
            cases hq1
        · rw [lookupFs_cons, lookupFs_cons,
            getEntry_setEntry_other ds name t (.file c) ht]
  | cons a base' ih =>
    intro fs name c hdir habs
    obtain ⟨ds, hds⟩ := hdir
    cases fs with
    | file c0 => cases hds
    | dir es0 =>
      rw [lookupFs_cons] at hds
      cases hg : getEntry es0 a with
      | none =>
        rw [hg] at hds
        cases hds
      | some child =>
        rw [hg] at hds
        rw [List.cons_append, lookupFs_cons, hg] at habs
        obtain ⟨c2, hw, hlk, hframe⟩ := ih child name c ⟨ds, hds⟩ habs
        refine ⟨.dir (setEntry es0 a c2), ?_, ?_, ?_⟩
        · rw [List.cons_append, writeFileAt_cons2 es0 a (base' ++ [name]) (by simp) c, hg]
          show (writeFileAt child (base' ++ [name]) c).map
            (fun n => FsNode.dir (setEntry es0 a n)) = _
          rw [hw]
          rfl
        · rw [List.cons_append, lookupFs_cons, getEntry_setEntry_same]
          exact hlk
        · intro q hq1 hq2
          cases q with
          | nil => cases hq2
          | cons t q' =>
            by_cases hta : t = a
            · subst hta
              rw [List.cons_append] at hq1 hq2
              have hq1' := isPre_cons_same t (base' ++ [name]) q' hq1
              have hq2' := isPre_cons_same t q' (base' ++ [name]) hq2
              rw [lookupFs_cons, lookupFs_cons, getEntry_setEntry_same, hg]
              exact hframe q' hq1' hq2'
            · rw [lookupFs_cons, lookupFs_cons,
                getEntry_setEntry_other es0 a t c2 hta]

/-- Every file of the tree `n` appears with identical content at the
matching relative path below `base`. -/
def mirrorFiles (fs2 : FsNode) (base : List String) (n : FsNode) : Prop :=
  ∀ rel c, lookupFs n rel = some (.file c) → lookupFs fs2 (base ++ rel) = some (.file c)

/-- Every directory of the tree `n` appears as a directory at the
matching relative path below `base`. -/
def mirrorDirs (fs2 : FsNode) (base : List String) (n : FsNode) : Prop :=
  ∀ rel es0, lookupFs n rel = some (.dir es0) →
    ∃ es1, lookupFs fs2 (base ++ rel) = some (.dir es1)

/-- Extending the left path preserves a negative extension test. -/
theorem isPre_append_of : ∀ (d x s : List String),
    isPre d s = false → isPre (d ++ x) s = false := by
  intro d x s h
  cases hp : isPre (d ++ x) s
  · rfl
  · exfalso
    rw [isPre_iff] at hp
    obtain ⟨r, hr⟩ := hp
    rw [List.append_assoc] at hr
    rw [(isPre_iff d s).mpr ⟨x ++ r, hr⟩] at h
    cases h

/-- A path incomparable with `d` stays incomparable with `d` extended by
one segment, given it does not extend `d`'s extension. -/
theorem isPre_into_snoc (q d : List String) (x : String) (h1 : isPre q d = false)
    (h2 : isPre (d ++ [x]) q = false) : isPre q (d ++ [x]) = false := by
  cases hp : isPre q (d ++ [x])
  · rfl
  · exfalso
    rcases isPre_snoc_elim q d x hp with h | h
    · rw [h] at h1
      cases h1
    · rw [h, isPre_refl] at h2
      cases h2

/-- A successful entry lookup is a membership. -/
theorem getEntry_mem : ∀ (es : List (String × FsNode)) (k : String) (v : FsNode),
    getEntry es k = some v → (k, v) ∈ es := by
  intro es
  induction es with
  | nil => intro k v h; cases h
  | cons p es' ih =>
    intro k v h
    rcases p with ⟨k0, v0⟩
    rw [getEntry] at h
    by_cases hk : k0 = k
    · rw [if_pos hk] at h
      cases h
      subst hk
      exact List.mem_cons_self _ _
    · rw [if_neg hk] at h
      exact List.mem_cons_of_mem _ (ih k v h)

/-- `copyFileFs` on an existing file source is the file write. -/
theorem copyFileFs_eq (fs : FsNode) (src dest : List String) (c : String)
    (h : lookupFs fs src = some (.file c)) :
    copyFileFs fs src dest = writeFileAt fs dest c := by
  rw [copyFileFs, h]

/-- Splitting one segment off an appended path. -/
theorem append_cons_eq (d : List String) (nm : String) (rel : List String) :
    d ++ (nm :: rel) = (d ++ [nm]) ++ rel := by
  rw [List.append_assoc]
  rfl

/-- One successful step unfolds the entry loop. -/
theorem copyEntriesGo_cons_ok (step copyF : FsNode → List String → List String → Option FsNode)
    (fs fsx : FsNode) (src dest : List String) (name : String) (isD : Bool)
    (rest : List (String × Bool))
    (h : (if isD then step fs (src ++ [name]) (dest ++ [name])
          else copyF fs (src ++ [name]) (dest ++ [name])) = some fsx) :
    copyEntriesGo step copyF fs src dest ((name, isD) :: rest) =
      copyEntriesGo step copyF fsx src dest rest := by
  rw [copyEntriesGo, h]

/-- Specification of the entry loop: given a correct recursive step, the
loop copies every listed entry below `dest`, changes nothing outside the
copied entries, and keeps `dest` a directory. -/
theorem copyEntriesGo_spec (n : Nat)
    (hstep : ∀ (fs : FsNode) (src dest : List String) (ces : List (String × FsNode)),
      lookupFs fs src = some (.dir ces) → wfFsN (n + 1) (.dir ces) = true →
      isPre src dest = false → isPre dest src = false →
      ancOkFs fs dest = true →
      (lookupFs fs dest = none ∨ lookupFs fs dest = some (.dir [])) →
      ∃ fs2, copyDirFs (n + 1) fs src dest = some fs2
        ∧ (∀ q, isPre dest q = false → isPre q dest = false →
            lookupFs fs2 q = lookupFs fs q)
        ∧ mirrorFiles fs2 dest (.dir ces)
        ∧ mirrorDirs fs2 dest (.dir ces)) :
    ∀ (es2 esFull : List (String × FsNode)) (fs : FsNode) (src dest : List String),
      lookupFs fs src = some (.dir esFull) →
      (esFull.map Prod.fst).Nodup →
      (es2.map Prod.fst).Nodup →
      (∀ e ∈ es2, e ∈ esFull) →
      (∀ e ∈ es2, wfFsN (n + 1) e.2 = true) →
      isPre src dest = false → isPre dest src = false →
      (∃ ds, lookupFs fs dest = some (.dir ds)) →
      (∀ e ∈ es2, lookupFs fs (dest ++ [e.1]) = none) →
      ∃ fs2, copyEntriesGo (copyDirFs (n + 1)) copyFileFs fs src dest
          (es2.map (fun e => (e.1, isDirNode e.2))) = some fs2
        ∧ (∀ q, isPre q dest = false →
            (∀ e ∈ es2, isPre (dest ++ [e.1]) q = false) →
            lookupFs fs2 q = lookupFs fs q)
        ∧ (∀ e ∈ es2, mirrorFiles fs2 (dest ++ [e.1]) e.2 ∧ mirrorDirs fs2 (dest ++ [e.1]) e.2)
        ∧ (∃ ds2, lookupFs fs2 dest = some (.dir ds2)) := by
  intro es2
  induction es2 with
  | nil =>
    intro esFull fs src dest _ _ _ _ _ _ _ hdd _
    exact ⟨fs, rfl, fun q _ _ => rfl, fun e he => absurd he (List.not_mem_nil e), hdd⟩
  | cons hd rest ihr =>
    intro esFull fs src dest hsrc hndFull hnd2 hmem hwf hsd hds hdd habs
    rcases hd with ⟨name, child⟩
    obtain ⟨ds, hdsEq⟩ := hdd
    rw [List.map_cons, List.nodup_cons] at hnd2
    have hgFull : getEntry esFull name = some child :=
      getEntry_of_mem_nodup esFull name child hndFull (hmem _ (List.mem_cons_self _ _))
    have hsrcChild : lookupFs fs (src ++ [name]) = some child :=
      lookupFs_child fs src esFull name child hsrc hgFull
    have habsent : lookupFs fs (dest ++ [name]) = none :=
      habs _ (List.mem_cons_self _ _)
    have hanc' : ancOkFs fs (dest ++ [name]) = true := ancOk_of_dir dest fs ds name hdsEq
    have hsd' : isPre (src ++ [name]) (dest ++ [name]) = false := isPre_snoc src dest name name hsd
    have hds' : isPre (dest ++ [name]) (src ++ [name]) = false := isPre_snoc dest src name name hds
    have hhead : ∃ fs', (if isDirNode child
          then copyDirFs (n + 1) fs (src ++ [name]) (dest ++ [name])
          else copyFileFs fs (src ++ [name]) (dest ++ [name])) = some fs'
        ∧ (∀ q, isPre (dest ++ [name]) q = false → isPre q (dest ++ [name]) = false →
            lookupFs fs' q = lookupFs fs q)
        ∧ mirrorFiles fs' (dest ++ [name]) child
        ∧ mirrorDirs fs' (dest ++ [name]) child
        ∧ (∃ n0, lookupFs fs' (dest ++ [name]) = some n0) := by
      cases child with
      | dir childEs =>
        obtain ⟨fs', hrun, hframe', hmf', hmd'⟩ :=
          hstep fs (src ++ [name]) (dest ++ [name]) childEs hsrcChild
            (hwf _ (List.mem_cons_self _ _)) hsd' hds' hanc' (Or.inl habsent)
        obtain ⟨ds1, hds1⟩ := hmd' [] childEs (lookupFs_nil _)
        rw [List.append_nil] at hds1
        exact ⟨fs', hrun, hframe', hmf', hmd', ⟨_, hds1⟩⟩
      | file c =>
        obtain ⟨fs', hw, hlk', hframe'⟩ :=
          writeFileAt_spec dest fs name c ⟨ds, hdsEq⟩ habsent
        refine ⟨fs', ?_, hframe', ?_, ?_, ⟨_, hlk'⟩⟩
        · show copyFileFs fs (src ++ [name]) (dest ++ [name]) = some fs'
          rw [copyFileFs_eq fs (src ++ [name]) (dest ++ [name]) c hsrcChild]
          exact hw
        · intro rel c0 hrel
          cases rel with
          | nil =>
            rw [lookupFs_nil] at hrel
            cases hrel
            rw [List.append_nil]
            exact hlk'
          | cons u rel' => cases hrel
        · intro rel es0 hrel
          cases rel with
          | nil =>
            rw [lookupFs_nil] at hrel
            cases hrel
          | cons u rel' => cases hrel
    obtain ⟨fs', hstepEq, hframe', hmfHead, hmdHead, n0, hn0⟩ := hhead
    obtain ⟨ds2, hds2⟩ := ancestor_dir dest fs' [name] n0 hn0 (by simp)
    have hd2s : isPre (dest ++ [name]) src = false := isPre_append_of dest [name] src hds
    have hs2d : isPre src (dest ++ [name]) = false := isPre_into_snoc src dest name hsd hd2s
    have hsrcPres : lookupFs fs' src = some (.dir esFull) := by
      rw [hframe' src hd2s hs2d]
      exact hsrc
    have hrestAbs : ∀ e ∈ rest, lookupFs fs' (dest ++ [e.1]) = none := by
      intro e he
      have hne : e.1 ≠ name := by
        intro heq
        exact hnd2.1 (heq ▸ List.mem_map.mpr ⟨e, he, rfl⟩)
      have hx1 : isPre (dest ++ [name]) (dest ++ [e.1]) = false := by
        rw [isPre_snoc_same]
        rw [beq_eq_false_iff_ne]
        exact fun h => hne h.symm
      have hx2 : isPre (dest ++ [e.1]) (dest ++ [name]) = false := by
        rw [isPre_snoc_same]
        rw [beq_eq_false_iff_ne]
        exact hne
      rw [hframe' _ hx1 hx2]
      exact habs _ (List.mem_cons_of_mem _ he)
    obtain ⟨fs2, hrun2, hframe2, hmirror2, hdestdir2⟩ :=
      ihr esFull fs' src dest hsrcPres hndFull hnd2.2
        (fun e he => hmem e (List.mem_cons_of_mem _ he))
        (fun e he => hwf e (List.mem_cons_of_mem _ he))
        hsd hds ⟨ds2, hds2⟩ hrestAbs
    refine ⟨fs2, ?_, ?_, ?_, hdestdir2⟩
    · rw [List.map_cons]
      rw [copyEntriesGo_cons_ok (copyDirFs (n + 1)) copyFileFs fs fs' src dest
        name (isDirNode child) (rest.map (fun e => (e.1, isDirNode e.2))) hstepEq]
      exact hrun2
    · intro q hq1 hq2
      have hqhead : isPre (dest ++ [name]) q = false := hq2 _ (List.mem_cons_self _ _)
      have hqhead2 : isPre q (dest ++ [name]) = false := isPre_into_snoc q dest name hq1 hqhead
      rw [hframe2 q hq1 (fun e he => hq2 e (List.mem_cons_of_mem _ he))]
      exact hframe' q hqhead hqhead2
    · intro e he
      rcases List.mem_cons.mp he with rfl | he'
      · show mirrorFiles fs2 (dest ++ [name]) child ∧ mirrorDirs fs2 (dest ++ [name]) child
        have hlong : ∀ rel : List String, isPre ((dest ++ [name]) ++ rel) dest = false := by
          intro rel
          refine isPre_long _ _ ?_
          simp only [List.length_append, List.length_singleton]
          omega
        have hrest : ∀ rel : List String, ∀ x ∈ rest,
            isPre (dest ++ [x.1]) ((dest ++ [name]) ++ rel) = false := by
          intro rel x hx
          have hne : x.1 ≠ name := by
            intro heq
            exact hnd2.1 (heq ▸ List.mem_map.mpr ⟨x, hx, rfl⟩)
          rw [List.append_assoc dest [name] rel]
          rw [isPre_append_cancel dest [x.1] ([name] ++ rel)]
          rw [List.singleton_append, isPre_cons_cons]
          rw [beq_eq_false_iff_ne.mpr hne, Bool.false_and]
        constructor
        · intro rel c hrel
          rw [hframe2 _ (hlong rel) (hrest rel)]
          exact hmfHead rel c hrel
        · intro rel es0 hrel
          obtain ⟨es1, hes1⟩ := hmdHead rel es0 hrel
          refine ⟨es1, ?_⟩
          rw [hframe2 _ (hlong rel) (hrest rel)]
          exact hes1
      · exact hmirror2 e he'

/-- Unfolding of the directory copy at positive fuel. -/
theorem copyDirFs_succ (k : Nat) (fs : FsNode) (src dest : List String) :
    copyDirFs (k + 1) fs src dest =
      (match (if existsFs fs dest then some fs else mkdirp fs dest) with
       | none => none
       | some fs1 =>
         match lookupFs fs1 src with
         | some (.dir es) => copyEntriesGo (copyDirFs k) copyFileFs fs1 src dest
             (es.map (fun e => (e.1, isDirNode e.2)))
         | _ => none) := rfl

/-- The destination-preparation phase of the copy: afterwards the
destination is an empty directory and nothing incomparable changed. -/
theorem copyDirFs_phase (fs : FsNode) (dest : List String)
    (hanc : ancOkFs fs dest = true)
    (hdest : lookupFs fs dest = none ∨ lookupFs fs dest = some (.dir [])) :
    ∃ fs1, (if existsFs fs dest then some fs else mkdirp fs dest) = some fs1
      ∧ lookupFs fs1 dest = some (.dir [])
      ∧ (∀ q, isPre dest q = false → isPre q dest = false →
          lookupFs fs1 q = lookupFs fs q) := by
  rcases hdest with hnone | hdir
  · have hex : existsFs fs dest = false := by rw [existsFs, hnone]; rfl
    obtain ⟨fs1, hmk, hframe, hmade, _⟩ := mkdirp_spec dest fs hanc (Or.inl hnone)
    refine ⟨fs1, ?_, hmade hnone, hframe⟩
    rw [hex]
    exact hmk
  · have hex : existsFs fs dest = true := by rw [existsFs, hdir]; rfl
    exact ⟨fs, by rw [hex]; rfl, hdir, fun q _ _ => rfl⟩

/-- Specification of the recursive directory copy: with a well-formed
source directory, a destination that is disjoint from the source and
absent or an empty directory, and the ancestor condition on the
destination, the copy succeeds, changes no path incomparable with the
destination, and produces below the destination every file (with
identical content) and every directory of the source tree. -/
theorem copyDirFs_spec : ∀ (fuel : Nat) (fs : FsNode) (src dest : List String)
    (es : List (String × FsNode)),
    lookupFs fs src = some (.dir es) →
    wfFsN (fuel + 1) (.dir es) = true →
    isPre src dest = false → isPre dest src = false →
    ancOkFs fs dest = true →
    (lookupFs fs dest = none ∨ lookupFs fs dest = some (.dir [])) →
    ∃ fs2, copyDirFs (fuel + 1) fs src dest = some fs2
      ∧ (∀ q, isPre dest q = false → isPre q dest = false →
          lookupFs fs2 q = lookupFs fs q)
      ∧ mirrorFiles fs2 dest (.dir es) ∧ mirrorDirs fs2 dest (.dir es) := by
  intro fuel
  induction fuel with
  | zero =>
    intro fs src dest es hsrc hwf h1 h2 hanc hdest
    have hes : es = [] := by
      cases es with
      | nil => rfl
      | cons e t =>
        rw [wfFsN_succ_dir, Bool.and_eq_true] at hwf
        have h := hwf.2
        rw [List.all_cons] at h
        rw [show wfFsN 0 e.2 = false from rfl, Bool.false_and] at h
        cases h
    subst hes
    obtain ⟨fs1, hphase, hdest1, hframe1⟩ := copyDirFs_phase fs dest hanc hdest
    have hsrc1 : lookupFs fs1 src = some (.dir []) := by
      rw [hframe1 src h2 h1]
      exact hsrc
    refine ⟨fs1, ?_, hframe1, ?_, ?_⟩
    · rw [copyDirFs_succ, hphase]
      show (match lookupFs fs1 src with
            | some (.dir es) => copyEntriesGo (copyDirFs 0) copyFileFs fs1 src dest
                (es.map (fun e => (e.1, isDirNode e.2)))
            | _ => none) = some fs1
      rw [hsrc1]
      rfl
    · intro rel c hrel
      cases rel with
      | nil =>
        rw [lookupFs_nil] at hrel
        cases hrel
      | cons u rel' =>
        rw [lookupFs_cons] at hrel
        cases hrel
    · intro rel es0 hrel
      cases rel with
      | nil =>
        rw [lookupFs_nil] at hrel
        cases hrel
        exact ⟨[], by rw [List.append_nil]; exact hdest1⟩
      | cons u rel' =>
        rw [lookupFs_cons] at hrel
        cases hrel
  | succ n ih =>
    intro fs src dest es hsrc hwf h1 h2 hanc hdest
    obtain ⟨fs1, hphase, hdest1, hframe1⟩ := copyDirFs_phase fs dest hanc hdest
    have hsrc1 : lookupFs fs1 src = some (.dir es) := by
      rw [hframe1 src h2 h1]
      exact hsrc
    rw [wfFsN_succ_dir, Bool.and_eq_true, decide_eq_true_eq] at hwf
    have hnd := hwf.1
    have hch : ∀ e ∈ es, wfFsN (n + 1) e.2 = true := by
      have h := hwf.2
      rw [List.all_eq_true] at h
      exact fun e he => h e he
    have habs : ∀ e ∈ es, lookupFs fs1 (dest ++ [e.1]) = none := by
      intro e _
      rw [lookupFs_append, hdest1]
      rfl
    obtain ⟨fs2, hloop, hframe2, hmirror2, hdestdir2⟩ :=
      copyEntriesGo_spec n ih es es fs1 src dest hsrc1 hnd hnd
        (fun e he => he) hch h1 h2 ⟨[], hdest1⟩ habs
    refine ⟨fs2, ?_, ?_, ?_, ?_⟩
    · rw [copyDirFs_succ, hphase]
      show (match lookupFs fs1 src with
            | some (.dir es) => copyEntriesGo (copyDirFs (n + 1)) copyFileFs fs1 src dest
                (es.map (fun e => (e.1, isDirNode e.2)))
            | _ => none) = some fs2
      rw [hsrc1]
      exact hloop
    · intro q hq1 hq2
      rw [hframe2 q hq2 (fun e _ => isPre_append_of dest [e.1] q hq1)]
      exact hframe1 q hq1 hq2
    · intro rel c hrel
      cases rel with
      | nil =>
        rw [lookupFs_nil] at hrel
        cases hrel
      | cons nm rel' =>
        rw [lookupFs_cons] at hrel
        cases hge : getEntry es nm with
        | none =>
          rw [hge] at hrel
          cases hrel
        | some chld =>
          rw [hge] at hrel
          have hm := getEntry_mem es nm chld hge
          have hres := (hmirror2 (nm, chld) hm).1 rel' c hrel
          rw [append_cons_eq]
          exact hres
    · intro rel es0 hrel
      cases rel with
      | nil =>
        rw [lookupFs_nil] at hrel
        cases hrel
        obtain ⟨ds2, hds2⟩ := hdestdir2
        exact ⟨ds2, by rw [List.append_nil]; exact hds2⟩
      | cons nm rel' =>
        rw [lookupFs_cons] at hrel
        cases hge : getEntry es nm with
        | none =>
          rw [hge] at hrel
          cases hrel
        | some chld =>
          rw [hge] at hrel
          have hm := getEntry_mem es nm chld hge
          obtain ⟨es1, hes1⟩ := (hmirror2 (nm, chld) hm).2 rel' es0 hrel
          refine ⟨es1, ?_⟩
          rw [append_cons_eq]
          exact hes1

/-- Two incomparable paths stay incomparable when one is extended. -/
theorem isPre_disjoint_extend (src dest rel : List String)
    (h1 : isPre src dest = false) (h2 : isPre dest src = false) :
    isPre dest (src ++ rel) = false := by
  cases hp : isPre dest (src ++ rel)
  · rfl
  · exfalso
    rw [isPre_iff] at hp
    obtain ⟨r, hr⟩ := hp
    by_cases hl : dest.length ≤ src.length
    · have hps : isPre dest src = true := by
        rw [isPre_iff]
        refine ⟨r.take (src.length - dest.length), ?_⟩
        have ht := congrArg (fun l => List.take src.length l) hr
        simp only at ht
        rw [List.take_append_eq_append_take, List.take_of_length_le hl,
          List.take_left] at ht
        exact ht
      rw [hps] at h2
      cases h2
    · push_neg at hl
      have hps : isPre src dest = true := by
        rw [isPre_iff]
        refine ⟨rel.take (dest.length - src.length), ?_⟩
        have ht := congrArg (fun l => List.take dest.length l) hr.symm
        simp only at ht
        rw [List.take_append_eq_append_take,
          List.take_of_length_le (le_of_lt hl), List.take_left] at ht
        exact ht
      rw [hps] at h1
      cases h1

/-- C6: For every well-formed source tree of plain files and directories,
with the destination incomparable with the source, its strict ancestors
not blocked by files, and the destination absent or an existing empty
directory (the state the orchestrator establishes before copying),
copyDir(src, dest) succeeds and produces in dest a full structural mirror
of src: every file of src, hidden ones included, appears at the matching
relative path in dest with identical content, every directory of src
appears as a directory at the matching relative path (intermediate
directories created as needed), and the whole subtree rooted at src is
left intact (copy, not move). -/
theorem copyDir_spec (fuel : Nat) (fs : FsNode) (src dest : List String)
    (es : List (String × FsNode))
    (hsrc : lookupFs fs src = some (.dir es))
    (hwf : wfFsN (fuel + 1) (.dir es) = true)
    (h1 : isPre src dest = false) (h2 : isPre dest src = false)
    (hanc : ancOkFs fs dest = true)
    (hdest : lookupFs fs dest = none ∨ lookupFs fs dest = some (.dir [])) :
    ∃ fs2, copyDirFs (fuel + 1) fs src dest = some fs2
      ∧ mirrorFiles fs2 dest (.dir es)
      ∧ mirrorDirs fs2 dest (.dir es)
      ∧ (∀ rel, lookupFs fs2 (src ++ rel) = lookupFs fs (src ++ rel)) := by
  obtain ⟨fs2, hrun, hframe, hmf, hmd⟩ :=
    copyDirFs_spec fuel fs src dest es hsrc hwf h1 h2 hanc hdest
  refine ⟨fs2, hrun, hmf, hmd, ?_⟩
  intro rel
  exact hframe (src ++ rel) (isPre_disjoint_extend src dest rel h1 h2)
    (isPre_append_of src rel dest h1)

/-- A small template tree: a top-level file, a hidden dotfile, and a
nested subdirectory with a file. -/
def tplEntries : List (String × FsNode) :=
  [("file.txt", .file "A"), (".dotfile", .file "B"),
   ("sub", .dir [("nested.txt", .file "C")])]

/-- A root holding the template and an empty project directory. -/
def copyDemoFs : FsNode := .dir [("tpl", .dir tplEntries), ("proj", .dir [])]

theorem copyDir_spec_witness :
    ∃ fs2, copyDirFs 4 copyDemoFs ["tpl"] ["proj"] = some fs2
      ∧ mirrorFiles fs2 ["proj"] (.dir tplEntries)
      ∧ mirrorDirs fs2 ["proj"] (.dir tplEntries)
      ∧ (∀ rel, lookupFs fs2 (["tpl"] ++ rel) = lookupFs copyDemoFs (["tpl"] ++ rel)) :=
  copyDir_spec 3 copyDemoFs ["tpl"] ["proj"] tplEntries rfl (by decide)
    rfl rfl rfl (Or.inr rfl)

/-- Splitting on the separator never yields an empty piece list. -/
theorem splitSlash_ne_nil : ∀ l : List Char, splitSlash l ≠ [] := by
  intro l
  cases l with
  | nil => simp [splitSlash]
  | cons c t =>
    rw [splitSlash]
    split
    · simp
    · split
      · simp
      · simp

/-- Splitting distributes over concatenation at a separator. -/
theorem splitSlash_append_sep : ∀ a b : List Char,
    splitSlash (a ++ '/' :: b) = splitSlash a ++ splitSlash b := by
  intro a b
  induction a with
  | nil =>
    show splitSlash ('/' :: b) = splitSlash [] ++ splitSlash b
    conv_lhs => rw [splitSlash]
    rw [if_pos rfl]
    rfl
  | cons c t ih =>
    show splitSlash (c :: (t ++ '/' :: b)) = splitSlash (c :: t) ++ splitSlash b
    by_cases hc : c = '/'
    · subst hc
      conv_lhs => rw [splitSlash]
      conv_rhs => rw [splitSlash]
      rw [if_pos rfl, if_pos rfl, ih]
      rfl
    · conv_lhs => rw [splitSlash]
      conv_rhs => rw [splitSlash]
      rw [if_neg hc, if_neg hc, ih]
      cases hs : splitSlash t with
      | nil => exact absurd hs (splitSlash_ne_nil t)
      | cons h r => rfl

/-- Pieces of the split contain no separator. -/
theorem splitSlash_no_slash : ∀ l s : List Char, s ∈ splitSlash l → '/' ∉ s := by
  intro l
  induction l with
  | nil =>
    intro s hs
    simp [splitSlash] at hs
    subst hs
    simp
  | cons c t ih =>
    intro s hs
    rw [splitSlash] at hs
    by_cases hc : c = '/'
    · rw [if_pos hc] at hs
      rcases List.mem_cons.mp hs with rfl | hs2
      · simp
      · exact ih s hs2
    · rw [if_neg hc] at hs
      cases hsp : splitSlash t with
      | nil => exact absurd hsp (splitSlash_ne_nil t)
      | cons h r =>
        rw [hsp] at hs
        rcases List.mem_cons.mp hs with rfl | hs2
        · intro hmem
          rcases List.mem_cons.mp hmem with h1 | h2
          · exact hc h1.symm
          · exact ih h (by rw [hsp]; exact List.mem_cons_self h r) h2
        · exact ih s (by rw [hsp]; exact List.mem_cons_of_mem h hs2)

/-- Characters of a piece of the split come from the input. -/
theorem splitSlash_chars : ∀ l s : List Char, s ∈ splitSlash l → ∀ c ∈ s, c ∈ l := by
  intro l
  induction l with
  | nil =>
    intro s hs c hc
    simp [splitSlash] at hs
    subst hs
    simp at hc
  | cons a t ih =>
    intro s hs c hc
    rw [splitSlash] at hs
    by_cases ha : a = '/'
    · rw [if_pos ha] at hs
      rcases List.mem_cons.mp hs with rfl | hs2
      · simp at hc
      · exact List.mem_cons_of_mem a (ih s hs2 c hc)
    · rw [if_neg ha] at hs
      cases hsp : splitSlash t with
      | nil => exact absurd hsp (splitSlash_ne_nil t)
      | cons h r =>
        rw [hsp] at hs
        rcases List.mem_cons.mp hs with rfl | hs2
        · rcases List.mem_cons.mp hc with rfl | hc2
          · exact List.mem_cons_self _ _
          · exact List.mem_cons_of_mem a
              (ih h (by rw [hsp]; exact List.mem_cons_self h r) c hc2)
        · exact List.mem_cons_of_mem a
            (ih s (by rw [hsp]; exact List.mem_cons_of_mem h hs2) c hc)

/-- A separator-free string splits into the single piece it is. -/
theorem splitSlash_no_sep : ∀ s : List Char, '/' ∉ s → splitSlash s = [s] := by
  intro s
  induction s with
  | nil => intro _; rfl
  | cons c t ih =>
    intro h
    have hc : c ≠ '/' := fun he => h (by rw [he]; exact List.mem_cons_self _ _)
    have ht : '/' ∉ t := fun hm => h (List.mem_cons_of_mem c hm)
    rw [splitSlash, if_neg hc, ih ht]

/-- Segment normalization processes a concatenation sequentially. -/
theorem normSegsGo_append : ∀ (u v acc : List (List Char)),
    normSegsGo acc (u ++ v) = normSegsGo (normSegsGo acc u) v := by
  intro u
  induction u with
  | nil => intro v acc; rfl
  | cons s t ih =>
    intro v acc
    show normSegsGo acc (s :: (t ++ v)) = normSegsGo (normSegsGo acc (s :: t)) v
    by_cases h1 : s = [] ∨ s = ['.']
    · simp only [normSegsGo, if_pos h1]
      exact ih v acc
    · by_cases h2 : s = ['.', '.']
      · simp only [normSegsGo, if_neg h1, if_pos h2]
        exact ih v acc.dropLast
      · simp only [normSegsGo, if_neg h1, if_neg h2]
        exact ih v (acc ++ [s])

/-- Every output segment of the normalizer comes from the accumulator or
the input. -/
theorem normSegsGo_subset : ∀ (l acc : List (List Char)) (s : List Char),
    s ∈ normSegsGo acc l → s ∈ acc ∨ s ∈ l := by
  intro l
  induction l with
  | nil => intro acc s h; exact Or.inl h
  | cons x t ih =>
    intro acc s h
    rw [normSegsGo] at h
    by_cases h1 : x = [] ∨ x = ['.']
    · rw [if_pos h1] at h
      rcases ih acc s h with ha | hl
      · exact Or.inl ha
      · exact Or.inr (List.mem_cons_of_mem x hl)
    · rw [if_neg h1] at h
      by_cases h2 : x = ['.', '.']
      · rw [if_pos h2] at h
        rcases ih acc.dropLast s h with ha | hl
        · exact Or.inl ((List.dropLast_sublist acc).subset ha)
        · exact Or.inr (List.mem_cons_of_mem x hl)
      · rw [if_neg h2] at h
        rcases ih (acc ++ [x]) s h with ha | hl
        · rcases List.mem_append.mp ha with ha1 | ha2
          · exact Or.inl ha1
          · rw [List.mem_singleton] at ha2
            subst ha2
            exact Or.inr (List.mem_cons_self _ _)
        · exact Or.inr (List.mem_cons_of_mem x hl)

/-- A normal path segment: non-empty, not a dot entry, separator-free. -/
def goodSeg (s : List Char) : Prop :=
  s ≠ [] ∧ s ≠ ['.'] ∧ s ≠ ['.', '.'] ∧ '/' ∉ s

/-- The normalizer only ever produces normal segments. -/
theorem normSegsGo_good : ∀ (l acc : List (List Char)),
    (∀ s ∈ acc, goodSeg s) → (∀ s ∈ l, '/' ∉ s) →
    ∀ s ∈ normSegsGo acc l, goodSeg s := by
  intro l
  induction l with
  | nil => intro acc hacc _ s hs; exact hacc s hs
  | cons x t ih =>
    intro acc hacc hl s hs
    rw [normSegsGo] at hs
    by_cases h1 : x = [] ∨ x = ['.']
    · rw [if_pos h1] at hs
      exact ih acc hacc (fun u hu => hl u (List.mem_cons_of_mem x hu)) s hs
    · by_cases h2 : x = ['.', '.']
      · rw [if_neg h1, if_pos h2] at hs
        exact ih acc.dropLast
          (fun u hu => hacc u ((List.dropLast_sublist acc).subset hu))
          (fun u hu => hl u (List.mem_cons_of_mem x hu)) s hs
      · rw [if_neg h1, if_neg h2] at hs
        refine ih (acc ++ [x]) ?_ (fun u hu => hl u (List.mem_cons_of_mem x hu)) s hs
        intro u hu
        rcases List.mem_append.mp hu with hu1 | hu2
        · exact hacc u hu1
        · rw [List.mem_singleton] at hu2
          subst hu2
          push_neg at h1
          exact ⟨h1.1, h1.2, h2, hl u (List.mem_cons_self _ _)⟩

/-- When every segment survives normalization, the accumulator is simply
extended. -/
theorem normSegsGo_all_keep : ∀ (l acc : List (List Char)),
    (∀ s ∈ l, s ≠ [] ∧ s ≠ ['.'] ∧ s ≠ ['.', '.']) →
    normSegsGo acc l = acc ++ l := by
  intro l
  induction l with
  | nil => intro acc _; rw [normSegsGo, List.append_nil]
  | cons x t ih =>
    intro acc h
    have hx := h x (List.mem_cons_self x t)
    have hor : ¬(x = [] ∨ x = ['.']) := by
      rintro (he | he)
      · exact hx.1 he
      · exact hx.2.1 he
    rw [normSegsGo, if_neg hor, if_neg hx.2.2,
      ih (acc ++ [x]) (fun u hu => h u (List.mem_cons_of_mem x hu)),
      List.append_assoc]
    rfl

/-- A character of a joined segment list is the separator or a character
of one of the segments. -/
theorem mem_joinSegs : ∀ (segs : List (List Char)) (c : Char),
    c ∈ joinSegs segs → c = '/' ∨ ∃ s ∈ segs, c ∈ s := by
  intro segs
  induction segs with
  | nil => intro c hc; simp [joinSegs] at hc
  | cons s t ih =>
    intro c hc
    cases t with
    | nil => exact Or.inr ⟨s, List.mem_cons_self s [], hc⟩
    | cons s2 t2 =>
      simp only [joinSegs] at hc
      rcases List.mem_append.mp hc with h1 | h2
      · exact Or.inr ⟨s, List.mem_cons_self _ _, h1⟩
      · rcases List.mem_cons.mp h2 with rfl | h3
        · exact Or.inl rfl
        · rcases ih c h3 with h4 | ⟨u, hu, hcu⟩
          · exact Or.inl h4
          · exact Or.inr ⟨u, List.mem_cons_of_mem s hu, hcu⟩

/-- Normalization introduces no characters beyond the separator and the
input's own. -/
theorem hasBadChar_normAbsL (l : List Char) (h : hasBadChar l = false) :
    hasBadChar (normAbsL l) = false := by
  rw [hasBadChar, List.any_eq_false]
  intro c hc
  rw [normAbsL] at hc
  rcases List.mem_cons.mp hc with rfl | hc2
  · decide
  · rcases mem_joinSegs _ c hc2 with rfl | ⟨s, hs, hcs⟩
    · decide
    · rcases normSegsGo_subset _ [] s hs with h0 | h1
      · simp at h0
      · have hcl : c ∈ l := splitSlash_chars l s h1 c hcs
        rw [hasBadChar, List.any_eq_false] at h
        exact h c hcl

/-- Joining clean segments and splitting again recovers them. -/
theorem splitSlash_joinSegs : ∀ segs : List (List Char),
    (∀ s ∈ segs, s ≠ [] ∧ '/' ∉ s) → segs ≠ [] →
    splitSlash (joinSegs segs) = segs := by
  intro segs
  induction segs with
  | nil => intro _ h; exact absurd rfl h
  | cons s t ih =>
    intro h _
    cases t with
    | nil =>
      show splitSlash (joinSegs [s]) = [s]
      rw [joinSegs]
      exact splitSlash_no_sep s (h s (List.mem_cons_self s [])).2
    | cons s2 t2 =>
      show splitSlash (joinSegs (s :: s2 :: t2)) = s :: s2 :: t2
      rw [joinSegs, splitSlash_append_sep,
        splitSlash_no_sep s (h s (List.mem_cons_self _ _)).2,
        ih (fun u hu => h u (List.mem_cons_of_mem s hu)) (List.cons_ne_nil s2 t2)]
      rfl
      exact fun he => List.noConfusion he

/-- Absolute-path normalization is idempotent. -/
theorem normAbsL_idem (l : List Char) : normAbsL (normAbsL l) = normAbsL l := by
  have hgood : ∀ s ∈ normSegs (splitSlash l), goodSeg s :=
    normSegsGo_good (splitSlash l) [] (fun s hs => absurd hs (List.not_mem_nil s))
      (fun s hs => splitSlash_no_slash l s hs)
  show normAbsL ('/' :: joinSegs (normSegs (splitSlash l))) = normAbsL l
  cases hA : normSegs (splitSlash l) with
  | nil =>
    conv_rhs => rw [normAbsL, hA]
    decide
  | cons a t =>
    have hgood2 : ∀ s ∈ a :: t, goodSeg s := fun s hs => hgood s (by rw [hA]; exact hs)
    have hclean : ∀ s ∈ a :: t, s ≠ [] ∧ '/' ∉ s :=
      fun s hs => ⟨(hgood2 s hs).1, (hgood2 s hs).2.2.2⟩
    show '/' :: joinSegs (normSegs (splitSlash ('/' :: joinSegs (a :: t)))) = normAbsL l
    rw [show splitSlash ('/' :: joinSegs (a :: t))
          = [] :: splitSlash (joinSegs (a :: t)) from by
        conv_lhs => rw [splitSlash]
        rw [if_pos rfl]]
    rw [splitSlash_joinSegs (a :: t) hclean (List.cons_ne_nil a t)]
    rw [show normSegs ([] :: a :: t) = normSegsGo [] (a :: t) from by
        rw [normSegs, normSegsGo, if_pos (Or.inl rfl)]]
    rw [normSegsGo_all_keep (a :: t) []
      (fun u hu => ⟨(hgood2 u hu).1, (hgood2 u hu).2.1, (hgood2 u hu).2.2.1⟩)]
    rw [List.nil_append, ← hA]
    rfl

/-- Joining after appending a final segment to a non-empty list. -/
theorem joinSegs_snoc_cons : ∀ (xs : List (List Char)) (x s : List Char),
    joinSegs ((x :: xs) ++ [s]) = joinSegs (x :: xs) ++ '/' :: s := by
  intro xs
  induction xs with
  | nil => intro x s; rfl
  | cons y ys ih =>
    intro x s
    show joinSegs (x :: y :: (ys ++ [s])) = joinSegs (x :: y :: ys) ++ '/' :: s
    have h2 : joinSegs (y :: (ys ++ [s])) = joinSegs (y :: ys) ++ '/' :: s := ih y s
    rw [joinSegs, h2]
    · show x ++ '/' :: (joinSegs (y :: ys) ++ '/' :: s)
        = (x ++ '/' :: joinSegs (y :: ys)) ++ '/' :: s
      simp [List.append_assoc]
    · exact fun he => List.noConfusion he

/-- A string whose first and last characters are not JavaScript whitespace
is its own trim. -/
theorem jsTrimL_id (l : List Char) (h1 : ∀ c, l.head? = some c → isJsWs c = false)
    (h2 : ∀ c, l.getLast? = some c → isJsWs c = false) : jsTrimL l = l := by
  cases l with
  | nil => rfl
  | cons c t =>
    have hc : isJsWs c = false := h1 c rfl
    rw [jsTrimL, List.dropWhile_cons, if_neg (by rw [hc]; exact Bool.false_ne_true)]
    cases hr : (c :: t).reverse with
    | nil => exact absurd hr (by simp)
    | cons d r =>
      have hd : (c :: t).getLast? = some d := by
        rw [← List.head?_reverse, hr]
        rfl
      rw [List.dropWhile_cons,
        if_neg (by rw [h2 d hd]; exact Bool.false_ne_true), ← hr,
        List.reverse_reverse]

/-- Appending a normal segment to a path before normalizing appends it to
the normalized segment list. -/
theorem normAbsL_append_seg (x b : List Char) (hb : '/' ∉ b)
    (hb2 : b ≠ [] ∧ b ≠ ['.'] ∧ b ≠ ['.', '.']) :
    normAbsL (x ++ '/' :: b) = '/' :: joinSegs (normSegs (splitSlash x) ++ [b]) := by
  rw [normAbsL, splitSlash_append_sep, splitSlash_no_sep b hb]
  rw [normSegs, normSegsGo_append]
  rw [show normSegsGo (normSegsGo [] (splitSlash x)) [b]
        = normSegsGo [] (splitSlash x) ++ [b] from
      normSegsGo_all_keep [b] _ (fun u hu => by
        rw [List.mem_singleton] at hu
        subst hu
        exact hb2)]
  rfl

/-- Normalizing a path that ends in an appended normal segment yields a
string that trimming leaves unchanged, provided the segment's last
character is not whitespace. -/
theorem jsTrimL_normAbsL_seg (x b : List Char) (hb : '/' ∉ b)
    (hb2 : b ≠ [] ∧ b ≠ ['.'] ∧ b ≠ ['.', '.'])
    (hbl : ∀ c, b.getLast? = some c → isJsWs c = false) :
    jsTrimL (normAbsL (x ++ '/' :: b)) = normAbsL (x ++ '/' :: b) := by
  rw [normAbsL_append_seg x b hb hb2]
  cases hA : normSegs (splitSlash x) with
  | nil =>
    apply jsTrimL_id
    · intro c hc
      have hc2 : some '/' = some c := hc
      cases hc2
      decide
    · intro c hc
      have hc2 : (['/'] ++ b).getLast? = some c := hc
      rw [List.getLast?_append_of_ne_nil ['/'] hb2.1] at hc2
      exact hbl c hc2
  | cons a t =>
    rw [joinSegs_snoc_cons]
    apply jsTrimL_id
    · intro c hc
      have hc2 : some '/' = some c := hc
      cases hc2
      decide
    · intro c hc
      have hc2 : ((('/' :: joinSegs (a :: t)) ++ ['/']) ++ b).getLast? = some c := by
        have he : ('/' :: (joinSegs (a :: t) ++ '/' :: b))
            = (('/' :: joinSegs (a :: t)) ++ ['/']) ++ b := by
          simp [List.append_assoc]
        rw [← he]
        exact hc
      rw [List.getLast?_append_of_ne_nil _ hb2.1] at hc2
      exact hbl c hc2

/-- A fixed point of the sanitizer: an absolute, trim-stable,
metacharacter-free, already-normalized path is returned unchanged. -/
theorem sanitizePath_fixed (cwd t : List Char) (hp : jsTrimL ('/' :: t) = '/' :: t)
    (hbad : hasBadChar ('/' :: t) = false) (hfix : normAbsL ('/' :: t) = '/' :: t) :
    sanitizePath cwd ('/' :: t) = .ok ('/' :: t) := by
  unfold sanitizePath
  rw [hp]
  rw [if_neg (by exact Bool.false_ne_true)]
  show (if (startsWithDash ('/' :: t) || hasBadChar ('/' :: t)) = true then
      (Except.error "Invalid path: contains dangerous characters".toList)
    else Except.ok (normalizeL (resolveL cwd ('/' :: t)))) = Except.ok ('/' :: t)
  have hsw : startsWithDash ('/' :: t) = false := rfl
  rw [hsw, hbad]
  rw [if_neg (by exact Bool.false_ne_true)]
  show Except.ok (normalizeL (normAbsL ('/' :: t))) = Except.ok ('/' :: t)
  rw [normalizeL, normAbsL_idem, hfix]

/-- Every successful sanitizer output is a normalization of some
metacharacter-free string, when the working directory itself is free of
metacharacters. -/
theorem sanitizePath_ok_shape (cwd input d : List Char) (hcwd : hasBadChar cwd = false)
    (h : sanitizePath cwd input = .ok d) :
    ∃ z, d = normAbsL z ∧ hasBadChar z = false := by
  have hspec := ((sanitizePath_spec cwd input).2 d h).1
  have hne : ¬(jsTrimL input = [] ∨ startsWithDash (jsTrimL input) = true ∨
      hasBadChar input = true) := by
    intro hc
    obtain ⟨e, he⟩ := (sanitizePath_spec cwd input).1.mpr hc
    rw [h] at he
    cases he
  push_neg at hne
  have hbadin : hasBadChar input = false := by
    cases hb : hasBadChar input
    · rfl
    · exact absurd hb hne.2.2
  have hbadtrim : hasBadChar (jsTrimL input) = false := by
    rw [hasBadChar_jsTrimL]
    exact hbadin
  rw [hspec, normalizeL, resolveL]
  by_cases habs : isAbsoluteL (jsTrimL input) = true
  · rw [if_pos habs]
    exact ⟨normAbsL (jsTrimL input), rfl, hasBadChar_normAbsL _ hbadtrim⟩
  · rw [if_neg habs]
    refine ⟨normAbsL (cwd ++ '/' :: jsTrimL input), rfl, hasBadChar_normAbsL _ ?_⟩
    have hsplit : hasBadChar (cwd ++ '/' :: jsTrimL input)
        = (hasBadChar cwd || (isBadChar '/' || hasBadChar (jsTrimL input))) := by
      rw [hasBadChar, List.any_append, List.any_cons]
      rfl
    rw [hsplit, hcwd, hbadtrim]
    decide

/-- Model of POSIX `path.join(a, b)` for an absolute `a` and a separator-free
`b`: concatenate with one separator and normalize, which is what `path.join`
does at the two call sites in `cloneBoilerplate`. -/
def pathJoinL (a b : List Char) : List Char := normAbsL (a ++ '/' :: b)

/-- Sanitizing the join of an already-sanitized directory with a normal,
metacharacter-free final segment succeeds and returns the join unchanged. -/
theorem sanitizePath_rejoin (cwd d b : List Char)
    (hd : ∃ z, d = normAbsL z ∧ hasBadChar z = false)
    (hb : '/' ∉ b) (hb2 : b ≠ [] ∧ b ≠ ['.'] ∧ b ≠ ['.', '.'])
    (hbbad : hasBadChar b = false)
    (hbl : ∀ c, b.getLast? = some c → isJsWs c = false) :
    sanitizePath cwd (pathJoinL d b) = .ok (pathJoinL d b) := by
  obtain ⟨z, rfl, hz⟩ := hd
  have hbadall : hasBadChar (normAbsL z ++ '/' :: b) = false := by
    have hbadd := hasBadChar_normAbsL z hz
    rw [hasBadChar] at hbadd hbbad ⊢
    rw [List.any_append, List.any_cons, hbadd, hbbad]
    decide
  have hbadjoin : hasBadChar (pathJoinL (normAbsL z) b) = false := by
    rw [pathJoinL]
    exact hasBadChar_normAbsL _ hbadall
  have htrim : jsTrimL (pathJoinL (normAbsL z) b) = pathJoinL (normAbsL z) b := by
    rw [pathJoinL]
    exact jsTrimL_normAbsL_seg _ b hb hb2 hbl
  have hfix : normAbsL (pathJoinL (normAbsL z) b) = pathJoinL (normAbsL z) b := by
    rw [pathJoinL]
    exact normAbsL_idem _
  have hshape : pathJoinL (normAbsL z) b
      = '/' :: joinSegs (normSegs (splitSlash (normAbsL z ++ '/' :: b))) := rfl
  rw [hshape] at htrim hbadjoin hfix ⊢
  exact sanitizePath_fixed cwd _ htrim hbadjoin hfix

/-- A subprocess invocation: argument-vector form (`execFileSync`, with an
optional working directory) or a shell command string. -/
inductive Spawn where
  | execFile : String → List (List Char) → Option (List Char) → Spawn
  | shell : List Char → Spawn

deriving instance DecidableEq for Spawn

/-- The fixed repository URL cloned by `cloneBoilerplate`. -/
def repoUrl : List Char := "https://github.com/SamNewhouse/create-stb.git".toList

/-- The argument vector of the `git clone` invocation. -/
def cloneArgs (dst : List Char) : List (List Char) :=
  ["clone".toList, "--depth".toList, "1".toList, "--filter=blob:none".toList,
   "--sparse".toList, repoUrl, dst]

/-- The argument vector of the `git sparse-checkout` invocation. -/
def sparseArgs : List (List Char) :=
  ["sparse-checkout".toList, "set".toList, "serverless".toList]

/-- Model of `cloneBoilerplate`: sanitize the temporary directory, join the
clone destination beneath it, sanitize again, run `git clone` and
`git sparse-checkout` (whose outcomes are the parameters `r1` and `r2`),
and return the `serverless` subdirectory of the clone destination.  The
first component is the trace of subprocesses started; a thrown error at any
point stops the trace and propagates. -/
def cloneBoilerplate (cwd tempDir : List Char) (r1 r2 : Except (List Char) Unit) :
    List Spawn × Except (List Char) (List Char) :=
  match sanitizePath cwd tempDir with
  | .error e => ([], .error e)
  | .ok safeTempDir =>
    let clonePath := pathJoinL safeTempDir "create-stb-temp".toList
    match sanitizePath cwd clonePath with
    | .error e => ([], .error e)
    | .ok safeClonePath =>
      match r1 with
      | .error e => ([.execFile "git" (cloneArgs safeClonePath) none], .error e)
      | .ok _ =>
        match r2 with
        | .error e => ([.execFile "git" (cloneArgs safeClonePath) none,
                        .execFile "git" sparseArgs (some safeClonePath)], .error e)
        | .ok _ => ([.execFile "git" (cloneArgs safeClonePath) none,
                     .execFile "git" sparseArgs (some safeClonePath)],
                    .ok (pathJoinL safeClonePath "serverless".toList))

/-- Unfolding of `cloneBoilerplate` when both sanitizer calls succeed. -/
theorem cloneBoilerplate_ok (cwd tempDir d p : List Char)
    (r1 r2 : Except (List Char) Unit)
    (h1 : sanitizePath cwd tempDir = .ok d)
    (h2 : sanitizePath cwd (pathJoinL d "create-stb-temp".toList) = .ok p) :
    cloneBoilerplate cwd tempDir r1 r2 =
      (match r1 with
       | .error e => ([.execFile "git" (cloneArgs p) none], .error e)
       | .ok _ =>
         match r2 with
         | .error e => ([.execFile "git" (cloneArgs p) none,
                         .execFile "git" sparseArgs (some p)], .error e)
         | .ok _ => ([.execFile "git" (cloneArgs p) none,
                      .execFile "git" sparseArgs (some p)],
                     .ok (pathJoinL p "serverless".toList))) := by
  unfold cloneBoilerplate
  rw [h1]
  show (match sanitizePath cwd (pathJoinL d "create-stb-temp".toList) with
        | .error e => (([] : List Spawn), (.error e : Except (List Char) (List Char)))
        | .ok safeClonePath =>
          match r1 with
          | .error e => ([.execFile "git" (cloneArgs safeClonePath) none], .error e)
          | .ok _ =>
            match r2 with
            | .error e => ([.execFile "git" (cloneArgs safeClonePath) none,
                            .execFile "git" sparseArgs (some safeClonePath)], .error e)
            | .ok _ => ([.execFile "git" (cloneArgs safeClonePath) none,
                         .execFile "git" sparseArgs (some safeClonePath)],
                        .ok (pathJoinL safeClonePath "serverless".toList))) = _
  rw [h2]

/-- C9: For every tempDir accepted by the sanitizer (with a
metacharacter-free working directory), cloneBoilerplate derives the clone
destination beneath the sanitized tempDir and the second sanitization
accepts it verbatim; the clone and sparse-checkout subprocesses are
invoked in argument-vector form with the fixed repository URL and the
known `serverless` subdirectory — never as a shell string; the returned
path is that subdirectory joined under the clone destination; and an error
of either subprocess propagates instead of being swallowed. -/
theorem cloneBoilerplate_spec (cwd tempDir : List Char)
    (r1 r2 : Except (List Char) Unit)
    (hcwd : hasBadChar cwd = false) (d : List Char)
    (hok : sanitizePath cwd tempDir = .ok d) :
    sanitizePath cwd (pathJoinL d "create-stb-temp".toList)
        = .ok (pathJoinL d "create-stb-temp".toList)
    ∧ cloneBoilerplate cwd tempDir r1 r2 =
        (let p := pathJoinL d "create-stb-temp".toList
         match r1 with
         | .error e => ([.execFile "git" (cloneArgs p) none], .error e)
         | .ok _ =>
           match r2 with
           | .error e => ([.execFile "git" (cloneArgs p) none,
                           .execFile "git" sparseArgs (some p)], .error e)
           | .ok _ => ([.execFile "git" (cloneArgs p) none,
                        .execFile "git" sparseArgs (some p)],
                       .ok (pathJoinL p "serverless".toList)))
    ∧ (∀ s ∈ (cloneBoilerplate cwd tempDir r1 r2).1, ∀ c, s ≠ Spawn.shell c) := by
  have hsan := sanitizePath_rejoin cwd d "create-stb-temp".toList
    (sanitizePath_ok_shape cwd tempDir d hcwd hok)
    (by decide) ⟨by decide, by decide, by decide⟩ (by decide)
    (fun c hc => by
      have hc2 : (some 'p' : Option Char) = some c := hc
      cases hc2
      decide)
  have htrace := cloneBoilerplate_ok cwd tempDir d
    (pathJoinL d "create-stb-temp".toList) r1 r2 hok hsan
  refine ⟨hsan, htrace, ?_⟩
  intro s hs c
  rw [htrace] at hs
  cases r1 with
  | error e =>
    simp at hs
    subst hs
    exact fun he => Spawn.noConfusion he
  | ok u =>
    cases r2 with
    | error e =>
      simp at hs
      rcases hs with hs | hs
      · subst hs
        exact fun he => Spawn.noConfusion he
      · subst hs
        exact fun he => Spawn.noConfusion he
    | ok v =>
      simp at hs
      rcases hs with hs | hs
      · subst hs
        exact fun he => Spawn.noConfusion he
      · subst hs
        exact fun he => Spawn.noConfusion he

theorem cloneBoilerplate_spec_witness :
    sanitizePath "/w".toList (pathJoinL "/tmp/x".toList "create-stb-temp".toList)
        = .ok (pathJoinL "/tmp/x".toList "create-stb-temp".toList)
    ∧ cloneBoilerplate "/w".toList "/tmp/x".toList (.ok ()) (.ok ()) =
        (let p := pathJoinL "/tmp/x".toList "create-stb-temp".toList
         match (.ok () : Except (List Char) Unit) with
         | .error e => ([.execFile "git" (cloneArgs p) none], .error e)
         | .ok _ =>
           match (.ok () : Except (List Char) Unit) with
           | .error e => ([.execFile "git" (cloneArgs p) none,
                           .execFile "git" sparseArgs (some p)], .error e)
           | .ok _ => ([.execFile "git" (cloneArgs p) none,
                        .execFile "git" sparseArgs (some p)],
                       .ok (pathJoinL p "serverless".toList)))
    ∧ (∀ s ∈ (cloneBoilerplate "/w".toList "/tmp/x".toList (.ok ()) (.ok ())).1,
        ∀ c, s ≠ Spawn.shell c) :=
  cloneBoilerplate_spec "/w".toList "/tmp/x".toList (.ok ()) (.ok ())
    (by decide) "/tmp/x".toList (by decide)
